import Mathlib

/-!
Verification of `scilpy/reconst/sh.py` (SH fitting, peak extraction, derived
maps, RISH features and basis conversion) against its natural-language
specification.

Modelling conventions.
* The 4D volumes of the source are already handled voxel-wise after the
  boolean-mask ravel (`volume[mask]`), so a volume is embedded as the ravelled
  `List` of its voxel rows (numpy boolean indexing traverses in C order, which
  is the list order).
* numpy float arithmetic is embedded as exact rational arithmetic (`ℚ`); the
  only IEEE-754 special values the claims depend on are the ones produced by
  the two unguarded final divisions of `maps_from_sh`, which are modelled
  explicitly by `RVal` and `Tracker`.
* Calls into external libraries (dipy's `peak_directions`, `gfa`,
  `sh_to_sf_matrix`, numpy's `linalg.norm` and `sqrt`) are parameters of the
  embedding: the loops pass them through unchanged, so every theorem about the
  repository's own logic quantifies over them, and closed theorems instantiate
  them with exact rational stand-ins that agree with the library functions on
  the concrete inputs used.
-/

namespace Scilpy

/-- A voxel's SH coefficient row (one row of the ravelled 4D array). -/
abbrev Voxel := List ℚ

/-- A matrix, as its list of rows. -/
abbrev Mat := List (List ℚ)

/-- A 3-vector: sphere vertex, peak direction, or RGB triple. -/
abbrev Vec3 := ℚ × ℚ × ℚ

/-- `np.dot` of two 1-D arrays. -/
def dot (u v : List ℚ) : ℚ := (List.zipWith (fun a b => a * b) u v).sum

/-- Entry-wise sum of a non-empty family of equal-length rows. -/
def sumVecs : List (List ℚ) → List ℚ
  | [] => []
  | [r] => r
  | r :: rs => List.zipWith (fun a b => a + b) r (sumVecs rs)

/-- `np.dot(v, B)` for a row vector `v` of length `C ≥ 1` and a matrix `B`
of shape `(C, D)`: entry `d` is `Σ_c v_c · B_c_d`, computed as the sum of
the rows of `B` scaled by the entries of `v`. -/
def vecMat (v : List ℚ) (B : Mat) : List ℚ :=
  sumVecs (List.zipWith (fun x row => row.map (fun b => x * b)) v B)

/-- numpy truthiness of `arr.any()`: some entry is non-zero. -/
def anyNonzero (v : List ℚ) : Bool := v.any (fun x => decide (x ≠ 0))

/-- `np.max` of a 1-D array (arrays it is applied to are non-empty). -/
def npMax (l : List ℚ) : ℚ := l.foldl max l.headI

/-- `np.min` of a 1-D array (arrays it is applied to are non-empty). -/
def npMin (l : List ℚ) : ℚ := l.foldl min l.headI

/-- The default mask `np.sum(shm_coeff, axis=3).astype(bool)` used by
`peaks_from_sh`, `maps_from_sh`, `convert_sh_basis` and `convert_sh_to_sf`
when the caller supplies none: a voxel is active when the SUM of its
coefficients is non-zero. -/
def defaultMask (vol : List Voxel) : List Bool :=
  vol.map (fun v => decide (v.sum ≠ 0))

/-- Boolean-mask indexing `volume[mask]`: the rows at `true` positions, in
traversal order. -/
def maskSelect {α : Type} (mask : List Bool) (vol : List α) : List α :=
  ((mask.zip vol).filter (fun p => p.1)).map (fun p => p.2)

/-- The slice assignment `out[mask] = flat` into a zero-initialised output
array: the flat rows return to the `true` positions, every other position
keeps the zero fill. -/
def maskScatter {α : Type} (zero : α) : List Bool → List α → List α
  | [], _ => []
  | true :: ms, x :: xs => x :: maskScatter zero ms xs
  | true :: ms, [] => zero :: maskScatter zero ms []
  | false :: ms, xs => zero :: maskScatter zero ms xs

/-- Chunk sizes of `np.array_split(arr, n)`: the first `len % n` chunks get
`len / n + 1` rows, the remaining ones `len / n`. -/
def arraySplitSizes (len n : ℕ) : List ℕ :=
  (List.range n).map (fun i => if i < len % n then len / n + 1 else len / n)

/-- Cut a list into consecutive chunks of the given sizes. -/
def splitBySizes {α : Type} : List ℕ → List α → List (List α)
  | [], _ => []
  | s :: ss, xs => xs.take s :: splitBySizes ss (xs.drop s)

/-- `np.array_split(xs, n)`: `n` contiguous chunks whose sizes differ by at
most one. -/
def arraySplit {α : Type} (xs : List α) (n : ℕ) : List (List α) :=
  splitBySizes (arraySplitSizes xs.length n) xs

/-- dipy's `order_from_ncoef` contract: number of coefficients of a basis of
the given order. -/
def ncoefOf (order : ℕ) (full : Bool) : ℕ :=
  if full then (order + 1) ^ 2 else (order + 1) * (order + 2) / 2

/-- dipy's `order_from_ncoef`, modelled from its documented contract: the
order whose coefficient count is `n`, erroring (`none`) when no order fits. -/
def order_from_ncoef (n : ℕ) (full : Bool) : Option ℕ :=
  (List.range (n + 1)).find? (fun o => ncoefOf o full == n)

/-- SH basis families accepted by the converters. -/
inductive Basis
  | descoteaux07
  | tournier07
deriving DecidableEq

/-- numpy dtypes accepted by `convert_sh_to_sf`. -/
inductive DType
  | float32
  | float64
deriving DecidableEq

/-- An array together with its numpy dtype. Values are carried exactly (as
rationals); the dtype tag records which precision the source allocates the
array with. -/
structure TypedArr where
  dtype : DType
  data : List (List ℚ)
deriving DecidableEq

/-- `_convert_sh_basis_loop`: per voxel, project to SF with the input basis
matrix and back to SH with the output pseudo-inverse; all-zero voxels are left
as they are. -/
def convert_sh_basis_loop (B_in invB_out : Mat) (sh : List Voxel) : List Voxel :=
  sh.map (fun v => if anyNonzero v then vecMat (vecMat v B_in) invB_out else v)

/-- Worker-count normalisation of `peaks_from_sh` (line 300):
`cpu_count() if nbr_processes is None or nbr_processes <= 0 else nbr_processes`. -/
def normWorkersPeaks (cpu : ℤ) (nbr_processes : Option ℤ) : ℤ :=
  match nbr_processes with
  | none => cpu
  | some k => if k ≤ 0 then cpu else k

/-- Worker-count normalisation of `maps_from_sh` (line 451) and
`convert_sh_basis` (line 619): `cpu_count() if nbr_processes is None or
nbr_processes < 0 else nbr_processes` — 0 is NOT replaced. -/
def normWorkersMaps (cpu : ℤ) (nbr_processes : Option ℤ) : ℤ :=
  match nbr_processes with
  | none => cpu
  | some k => if k < 0 then cpu else k

/-- Worker count seen by the body of `convert_sh_to_sf`: there is no
normalisation at all, only the default argument
`nbr_processes=multiprocessing.cpu_count()` of the signature. -/
def normWorkersShToSf (cpu : ℤ) (nbr_processes : Option ℤ) : ℤ :=
  match nbr_processes with
  | none => cpu
  | some k => k

/-- `convert_sh_basis`. `B_in` and `invB_out` stand for the matrices dipy's
`sh_to_sf_matrix` builds for the input and output configurations; `C` is the
coefficient count `shm_coeff.shape[-1]` and `cpu` is
`multiprocessing.cpu_count()`. Returns `none` where the source raises
(invalid coefficient count, or a non-positive worker count reaching
`np.array_split` / `Pool`). Chunk reassembly by slice assignment at the
prefix-sum offsets `chunk_len` is in-order concatenation, embedded as
`flatten`. -/
def convert_sh_basis (B_in invB_out : Mat) (shm_coeff : List Voxel) (C : ℕ)
    (mask : Option (List Bool)) (input_basis output_basis : Basis)
    (is_input_legacy is_output_legacy : Bool)
    (nbr_processes : Option ℤ) (cpu : ℤ) : Option (List Voxel) :=
  if input_basis = output_basis ∧ is_input_legacy = is_output_legacy then
    some shm_coeff
  else
    match order_from_ncoef C false with
    | none => none
    | some _ =>
      let m := match mask with | some mk => mk | none => defaultMask shm_coeff
      let nbr := normWorkersMaps cpu nbr_processes
      let flat := maskSelect m shm_coeff
      if nbr = 1 then
        some (maskScatter (List.replicate C 0) m
          (convert_sh_basis_loop B_in invB_out flat))
      else if nbr ≤ 0 then none
      else
        let chunks := arraySplit flat nbr.toNat
        some (maskScatter (List.replicate C 0) m
          ((chunks.map (convert_sh_basis_loop B_in invB_out)).flatten))

/-- `_convert_sh_to_sf_loop`: the output buffer is allocated with a
HARD-CODED `dtype=np.float32` (source line 669), whatever dtype the caller
requested; rows of all-zero voxels keep the zero fill. -/
def convert_sh_to_sf_loop (sh : List Voxel) (new_output_dim : ℕ) (B_in : Mat) :
    TypedArr :=
  ⟨DType.float32,
   sh.map (fun v =>
     if anyNonzero v then vecMat v B_in else List.replicate new_output_dim 0)⟩

/-- `convert_sh_to_sf`. `B_in` is the matrix built by dipy's
`sh_to_sf_matrix`; `B_in.astype(dtype)` is modelled by tagging it with the
requested dtype (`typedB`). `output_dim` is the sphere's vertex count. -/
def convert_sh_to_sf (B_in : Mat) (shm_coeff : List Voxel) (C : ℕ)
    (mask : Option (List Bool)) (dtype : DType) (input_full_basis : Bool)
    (output_dim : ℕ) (nbr_processes : Option ℤ) (cpu : ℤ) : Option TypedArr :=
  match order_from_ncoef C input_full_basis with
  | none => none
  | some _ =>
    let typedB : TypedArr := ⟨dtype, B_in⟩
    let m := match mask with | some mk => mk | none => defaultMask shm_coeff
    let nbr := normWorkersShToSf cpu nbr_processes
    let flat := maskSelect m shm_coeff
    if nbr = 1 then
      let tmp := convert_sh_to_sf_loop flat output_dim typedB.data
      some ⟨dtype, maskScatter (List.replicate output_dim 0) m tmp.data⟩
    else if nbr ≤ 0 then none
    else
      let chunks := arraySplit flat nbr.toNat
      let tmp : TypedArr :=
        ⟨dtype, (chunks.map
          (fun c => (convert_sh_to_sf_loop c output_dim typedB.data).data)).flatten⟩
      some ⟨dtype, maskScatter (List.replicate output_dim 0) m tmp.data⟩

/-- The value dipy's `peak_directions` returns for one ODF: peak directions,
their values and the indices of the sphere vertices they came from. -/
structure PeakDirections where
  dirs : List Vec3
  values : List ℚ
  indices : List ℤ

/-- The numpy slice assignment `dst[:n] = src[:n]` on 1-D arrays. -/
def sliceAssign {α : Type} (dst src : List α) (n : ℕ) : List α :=
  src.take n ++ dst.drop n

/-- Scale a 3-vector by a scalar. -/
def scaleVec (c : ℚ) (p : Vec3) : Vec3 := (c * p.1, c * p.2.1, c * p.2.2)

/-- Per-voxel body of `_peaks_from_sh_loop`. `pd` stands for dipy's
`peak_directions` with the sphere, the relative peak threshold, the minimum
separation angle and the symmetry flag already applied — the loop passes all
of them through unchanged, so the embedding takes the resulting
ODF-to-peaks function as a parameter. -/
def peaksVoxel (pd : List ℚ → PeakDirections) (B : Mat)
    (absolute_threshold : ℚ) (npeaks : ℕ) (normalize_peaks : Bool)
    (v : Voxel) : List Vec3 × List ℚ × List ℤ :=
  let dirs0 := List.replicate npeaks ((0, 0, 0) : Vec3)
  let vals0 := List.replicate npeaks (0 : ℚ)
  let inds0 := List.replicate npeaks (-1 : ℤ)
  if anyNonzero v then
    let odf := (vecMat v B).map (fun x => if x < absolute_threshold then 0 else x)
    let r := pd odf
    if r.values.length ≠ 0 then
      let n := min npeaks r.values.length
      let dirs1 := sliceAssign dirs0 r.dirs n
      let inds1 := sliceAssign inds0 r.indices n
      let vals1 := sliceAssign vals0 r.values n
      if normalize_peaks then
        let vals2 :=
          sliceAssign vals1 ((vals1.take n).map (fun x => x / r.values.headI)) n
        (List.zipWith (fun d w => scaleVec w d) dirs1 vals2, vals2, inds1)
      else (dirs1, vals1, inds1)
    else (dirs0, vals0, inds0)
  else (dirs0, vals0, inds0)

/-- `_peaks_from_sh_loop`: maps the per-voxel body over the ravelled chunk;
the three outputs are the per-voxel direction, value and index rows. -/
def peaks_from_sh_loop (pd : List ℚ → PeakDirections) (B : Mat)
    (absolute_threshold : ℚ) (npeaks : ℕ) (normalize_peaks : Bool)
    (sh : List Voxel) :
    List (List Vec3) × List (List ℚ) × List (List ℤ) :=
  (sh.map (fun v => (peaksVoxel pd B absolute_threshold npeaks normalize_peaks v).1),
   sh.map (fun v => (peaksVoxel pd B absolute_threshold npeaks normalize_peaks v).2.1),
   sh.map (fun v => (peaksVoxel pd B absolute_threshold npeaks normalize_peaks v).2.2))

/-- `peaks_from_sh`. `B` stands for the forward matrix dipy's
`sh_to_sf_matrix` builds for the call's configuration, `C` for
`shm_coeff.shape[-1]` and `cpu` for `multiprocessing.cpu_count()`. The final
arrays are zero-initialised over the full volume (including the index array,
which is filled with 0, not -1) and written at the mask positions. -/
def peaks_from_sh (pd : List ℚ → PeakDirections) (B : Mat)
    (shm_coeff : List Voxel) (C : ℕ) (mask : Option (List Bool))
    (absolute_threshold : ℚ) (normalize_peaks : Bool) (npeaks : ℕ)
    (full_basis : Bool) (nbr_processes : Option ℤ) (cpu : ℤ) :
    Option (List (List Vec3) × List (List ℚ) × List (List ℤ)) :=
  match order_from_ncoef C full_basis with
  | none => none
  | some _ =>
    let m := match mask with | some mk => mk | none => defaultMask shm_coeff
    let nbr := normWorkersPeaks cpu nbr_processes
    let flat := maskSelect m shm_coeff
    if nbr = 1 then
      let r := peaks_from_sh_loop pd B absolute_threshold npeaks normalize_peaks flat
      some (maskScatter (List.replicate npeaks ((0, 0, 0) : Vec3)) m r.1,
            maskScatter (List.replicate npeaks (0 : ℚ)) m r.2.1,
            maskScatter (List.replicate npeaks (0 : ℤ)) m r.2.2)
    else if nbr ≤ 0 then none
    else
      let chunks := arraySplit flat nbr.toNat
      let rs := chunks.map
        (peaks_from_sh_loop pd B absolute_threshold npeaks normalize_peaks)
      some (maskScatter (List.replicate npeaks ((0, 0, 0) : Vec3)) m
              ((rs.map (fun r => r.1)).flatten),
            maskScatter (List.replicate npeaks (0 : ℚ)) m
              ((rs.map (fun r => r.2.1)).flatten),
            maskScatter (List.replicate npeaks (0 : ℤ)) m
              ((rs.map (fun r => r.2.2)).flatten))

/-- External numeric functions called by `_maps_from_sh_loop`: dipy's `gfa`,
`np.linalg.norm` on a 3-vector, and `np.sqrt`. The loop calls them as black
boxes, so the embedding takes them as parameters. -/
structure ExternalFns where
  gfaF : List ℚ → ℚ
  norm3 : Vec3 → ℚ
  sqrtF : ℚ → ℚ

/-- The value of a running-max tracker initialised to `-np.inf`. -/
inductive Tracker
  | neginf
  | val (q : ℚ)
deriving DecidableEq

/-- python `max` / `np.maximum` over tracker values. -/
def tmax : Tracker → Tracker → Tracker
  | Tracker.neginf, t => t
  | Tracker.val a, Tracker.neginf => Tracker.val a
  | Tracker.val a, Tracker.val b => Tracker.val (max a b)

/-- The python variable `qa_map` of `_maps_from_sh_loop`: it is initialised
to the `np.zeros((N, npeaks))` matrix (line 381) but line 402 REBINDS it to
the single row `peak_values[idx] - odf.min()`, so after the first qualifying
voxel it is a 1-D row, not a per-voxel matrix. -/
inductive QAState
  | mat (rows : List (List ℚ))
  | row (r : List ℚ)
deriving DecidableEq

/-- What the assignments `tmp_qa_map_array[...] = qa_map` and
`qa_map_array[mask] = tmp_qa_map_array` make of the `qa_map` variable for a
slice of `n` voxels: a matrix is copied row by row, a single row is
broadcast to every voxel of the slice. -/
def qaRows (n : ℕ) : QAState → List (List ℚ)
  | QAState.mat rows => rows
  | QAState.row r => List.replicate n r

/-- The unnormalised RGB accumulation
`np.dot(np.abs(sphere.vertices).T, odf)`. -/
def rgbVec (verts : List Vec3) (odf : List ℚ) : Vec3 :=
  ((List.zipWith (fun p w => |p.1| * w) verts odf).sum,
   (List.zipWith (fun p w => |p.2.1| * w) verts odf).sum,
   (List.zipWith (fun p w => |p.2.2| * w) verts odf).sum)

/-- The per-chunk result of `_maps_from_sh_loop`. -/
structure MapsLoopOut where
  nufo : List ℚ
  afd_max : List ℚ
  afd_sum : List ℚ
  rgb : List Vec3
  gfa : List ℚ
  qa : QAState
  max_odf : ℚ
  global_max : Tracker
deriving DecidableEq

/-- Prepend one voxel's per-voxel outputs (NUFO, AFD-max, AFD-sum, RGB,
GFA) to a chunk result, leaving the threaded state (`qa_map` and the two
trackers) untouched. -/
def consVoxel (nufo afdm afds : ℚ) (rgbv : Vec3) (g : ℚ)
    (out : MapsLoopOut) : MapsLoopOut :=
  ⟨nufo :: out.nufo, afdm :: out.afd_max, afds :: out.afd_sum,
   rgbv :: out.rgb, g :: out.gfa, out.qa, out.max_odf, out.global_max⟩

/-- The voxel loop of `_maps_from_sh_loop`, threading the `qa_map` variable
and the two running trackers through the iterations. -/
def mapsLoopGo (E : ExternalFns) (B : Mat) (verts : List Vec3) (gfa_thr : ℚ) :
    List (Voxel × List ℚ × List ℤ) → QAState → ℚ → Tracker → MapsLoopOut
  | [], qa, mo, gm => ⟨[], [], [], [], [], qa, mo, gm⟩
  | (v, pvals, pinds) :: rest, qa, mo, gm =>
    if anyNonzero v then
      let odf := (vecMat v B).map (fun x => max x 0)
      let sum_odf := odf.sum
      let mo1 := max mo sum_odf
      let rgbv : Vec3 :=
        if 0 < sum_odf then
          let r := rgbVec verts odf
          scaleVec (sum_odf / E.norm3 r) r
        else (0, 0, 0)
      let g := E.gfaF odf
      if g < gfa_thr then
        consVoxel 0 0 0 rgbv g
          (mapsLoopGo E B verts gfa_thr rest qa mo1
            (tmax gm (Tracker.val (npMax odf))))
      else if pinds.countP (fun i => decide (i > -1)) ≠ 0 then
        consVoxel (pinds.countP (fun i => decide (i > -1)) : ℚ)
          (npMax pvals) (E.sqrtF (dot v v)) rgbv g
          (mapsLoopGo E B verts gfa_thr rest
            (QAState.row (pvals.map (fun x => x - npMin odf))) mo1
            (tmax gm (Tracker.val pvals.headI)))
      else
        consVoxel 0 0 0 rgbv g (mapsLoopGo E B verts gfa_thr rest qa mo1 gm)
    else
      consVoxel 0 0 0 ((0, 0, 0) : Vec3) 0
        (mapsLoopGo E B verts gfa_thr rest qa mo gm)

/-- `_maps_from_sh_loop` on one (already ravelled) chunk: `qa_map` starts as
the `np.zeros((N, npeaks))` matrix, `max_odf` at 0, `global_max` at
`-np.inf`. -/
def maps_from_sh_loop (E : ExternalFns) (B : Mat) (verts : List Vec3)
    (gfa_thr : ℚ) (sh : List Voxel) (pvals : List (List ℚ))
    (pinds : List (List ℤ)) (npeaks : ℕ) : MapsLoopOut :=
  mapsLoopGo E B verts gfa_thr (sh.zip (pvals.zip pinds))
    (QAState.mat (List.replicate sh.length (List.replicate npeaks 0)))
    0 Tracker.neginf

/-- An IEEE-754 value as numpy leaves it after the final unguarded divisions
of `maps_from_sh`: a finite (exactly represented) value or a special. -/
inductive RVal
  | fin (q : ℚ)
  | nan
  | pinf
  | ninf
deriving DecidableEq

/-- numpy division of a finite value by the reduced tracker: dividing by the
untouched `-np.inf` tracker gives a (signed) zero, dividing by zero gives
`nan` (0/0) or `±inf`, and any other division is exact. -/
def divByTracker (x : ℚ) : Tracker → RVal
  | Tracker.neginf => RVal.fin 0
  | Tracker.val d =>
    if d = 0 then
      if x = 0 then RVal.nan else if 0 < x then RVal.pinf else RVal.ninf
    else RVal.fin (x / d)

/-- Multiplication of such a value by the positive constant 255
(`rgb_map_array *= 255`). -/
def rmul255 : RVal → RVal
  | RVal.fin q => RVal.fin (255 * q)
  | RVal.nan => RVal.nan
  | RVal.pinf => RVal.pinf
  | RVal.ninf => RVal.ninf

/-- The phase-2 reduction of `maps_from_sh` over the per-chunk results
(source lines 500-505). NOTE: the first component is written exactly as the
source writes it — `all_time_max_odf = max(all_time_global_max, max_odf)` —
folding the max-ODF tracker through the accumulator of the OTHER tracker. -/
def mapsReduce (results : List (ℚ × Tracker)) : Tracker × Tracker :=
  results.foldl
    (fun acc r => (tmax acc.2 (Tracker.val r.1), tmax acc.2 r.2))
    (Tracker.neginf, Tracker.neginf)

/-- The value `maps_from_sh` returns. `rgb` and `qa` have been through the
final divisions, so their entries are `RVal`s; the other maps are untouched
rationals. -/
structure MapsOut where
  nufo : List ℚ
  afd_max : List ℚ
  afd_sum : List ℚ
  gfa : List ℚ
  rgb : List (RVal × RVal × RVal)
  qa : List (List RVal)
deriving DecidableEq

/-- The tail of `maps_from_sh`: scatter the ravelled maps back over the full
volume (zero fill outside the mask) and apply the three unguarded
normalisations `rgb /= all_time_max_odf`, `rgb *= 255`,
`qa /= all_time_global_max`. -/
def mapsFinish (m : List Bool) (npeaks : ℕ)
    (nufo afd_max afd_sum gfa : List ℚ) (rgb : List Vec3)
    (qa : List (List ℚ)) (modf gm : Tracker) : MapsOut :=
  { nufo := maskScatter 0 m nufo
    afd_max := maskScatter 0 m afd_max
    afd_sum := maskScatter 0 m afd_sum
    gfa := maskScatter 0 m gfa
    rgb := (maskScatter ((0, 0, 0) : Vec3) m rgb).map
      (fun p => (rmul255 (divByTracker p.1 modf),
                 rmul255 (divByTracker p.2.1 modf),
                 rmul255 (divByTracker p.2.2 modf)))
    qa := (maskScatter (List.replicate npeaks (0 : ℚ)) m qa).map
      (fun row => row.map (fun x => divByTracker x gm)) }

/-- `maps_from_sh`. `B` stands for the matrix dipy's `sh_to_sf_matrix`
builds, `verts` for `sphere.vertices`, `C` for `shm_coeff.shape[-1]`,
`npeaks` for `peak_values.shape[3]` and `cpu` for
`multiprocessing.cpu_count()`. In the sequential path the RGB divisor is the
loop's own `max_odf`; in the chunked path both divisors come out of
`mapsReduce`. -/
def maps_from_sh (E : ExternalFns) (B : Mat) (verts : List Vec3)
    (shm_coeff : List Voxel) (C : ℕ) (peak_values : List (List ℚ))
    (peak_indices : List (List ℤ)) (npeaks : ℕ) (mask : Option (List Bool))
    (gfa_thr : ℚ) (nbr_processes : Option ℤ) (cpu : ℤ) : Option MapsOut :=
  match order_from_ncoef C false with
  | none => none
  | some _ =>
    let m := match mask with | some mk => mk | none => defaultMask shm_coeff
    let nbr := normWorkersMaps cpu nbr_processes
    let flat := maskSelect m shm_coeff
    let fpv := maskSelect m peak_values
    let fpi := maskSelect m peak_indices
    if nbr = 1 then
      let lo := maps_from_sh_loop E B verts gfa_thr flat fpv fpi npeaks
      some (mapsFinish m npeaks lo.nufo lo.afd_max lo.afd_sum lo.gfa lo.rgb
        (qaRows flat.length lo.qa) (Tracker.val lo.max_odf) lo.global_max)
    else if nbr ≤ 0 then none
    else
      let n := nbr.toNat
      let shChunks := arraySplit flat n
      let pvChunks := arraySplit fpv n
      let piChunks := arraySplit fpi n
      let rs := (shChunks.zip (pvChunks.zip piChunks)).map
        (fun c => maps_from_sh_loop E B verts gfa_thr c.1 c.2.1 c.2.2 npeaks)
      let trackers := mapsReduce (rs.map (fun r => (r.max_odf, r.global_max)))
      let tmpQa := ((rs.zip shChunks).map
        (fun p => qaRows p.2.length p.1.qa)).flatten
      some (mapsFinish m npeaks
        ((rs.map (fun r => r.nufo)).flatten)
        ((rs.map (fun r => r.afd_max)).flatten)
        ((rs.map (fun r => r.afd_sum)).flatten)
        ((rs.map (fun r => r.gfa)).flatten)
        ((rs.map (fun r => r.rgb)).flatten)
        tmpQa trackers.1 trackers.2)

/-- The SH orders present in the basis (per dipy's `sph_harm_ind_list`):
even orders for the symmetric basis, all orders for the full basis,
ascending. -/
def orderList (sh_order : ℕ) (full : Bool) : List ℕ :=
  if full then List.range (sh_order + 1)
  else (List.range (sh_order / 2 + 1)).map (fun k => 2 * k)

/-- The order ids of dipy's `sph_harm_ind_list`: coefficient index ↦ its SH
order — ascending order blocks, `2n+1` entries for order `n`. -/
def orderIds (sh_order : ℕ) (full : Bool) : List ℕ :=
  (orderList sh_order full).flatMap (fun n => List.replicate (2 * n + 1) n)

/-- `n_indices_per_order = np.bincount(order_ids)[::step]` of `compute_rish`:
the number of coefficient indices of each present order. -/
def nIndicesPerOrder (sh_order : ℕ) (full : Bool) : List ℕ :=
  (orderList sh_order full).map (fun n => 2 * n + 1)

/-- The `np.add.reduceat` segment sums of `compute_rish`: consecutive blocks
of the given sizes; the final reduceat index pair is open-ended
(`[15,]` in the source comment), so the last block runs to the end of the
row. -/
def segSums : List ℕ → List ℚ → List ℚ
  | [], _ => []
  | [_], xs => [xs.sum]
  | c :: cs, xs => (xs.take c).sum :: segSums cs (xs.drop c)

/-- `compute_rish`. `C` is `sh.shape[-1]`; `none` where dipy's
`order_from_ncoef` raises. The mask is applied both before
(`sh = sh * mask[..., None]`) and after (`rish *= mask[..., None]`); the
returned order list is `sorted(np.unique(order_ids))`. -/
def compute_rish (sh : List Voxel) (C : ℕ) (mask : Option (List Bool))
    (full_basis : Bool) : Option (List (List ℚ) × List ℕ) :=
  match order_from_ncoef C full_basis with
  | none => none
  | some sh_order =>
    let shm := match mask with
      | some mk =>
        List.zipWith (fun (b : Bool) (v : Voxel) =>
          if b then v else v.map (fun _ => (0 : ℚ))) mk sh
      | none => sh
    let counts := nIndicesPerOrder sh_order full_basis
    let rish := shm.map (fun v => segSums counts (v.map (fun x => x * x)))
    let rish2 := match mask with
      | some mk =>
        List.zipWith (fun (b : Bool) (row : List ℚ) =>
          if b then row else row.map (fun _ => (0 : ℚ))) mk rish
      | none => rish
    some (rish2, ((orderIds sh_order full_basis).dedup).insertionSort (· ≤ ·))

/-- Modelled from the spec: `identify_shells` lives in
`scilpy.gradients.bvec_bval_tools`, which is not among the sources under
verification; the spec says it classifies gradient shells by unique b-value
clusters, so it is modelled as the distinct b-values of the table. -/
def identify_shells (bvals : List ℚ) : List ℚ := bvals.dedup

/-- The shell check of `compute_sh_coefficients` (source lines 91-94): sort
the shell values, then raise unless there are exactly two of them and the
lowest one is at most `b0_threshold`. -/
def singleShellViolated (bvals : List ℚ) (b0_threshold : ℚ) : Bool :=
  let shell_values := (identify_shells bvals).insertionSort (· ≤ ·)
  decide (shell_values.length ≠ 2) || decide (shell_values.headI > b0_threshold)

/-- `compute_sh_coefficients`, with everything downstream of the shell check
(b0 exclusion, attenuation, dipy's `sf_to_sh` fit, masking — none of which
run when the check raises) abstracted as `fit`. -/
def compute_sh_coefficients {α : Type} (fit : List ℚ → α) (bvals : List ℚ)
    (b0_threshold : ℚ) : Except String α :=
  if singleShellViolated bvals b0_threshold then
    Except.error "Can only work on single shell signals."
  else Except.ok (fit bvals)

/-- Exact integer square root by bounded search: the perfect-square inverse
of squaring, 0 on non-squares. Used only through `ratSqrt` below, on inputs
where the value is exact. -/
def natSqrtE (n : ℕ) : ℕ :=
  (((List.range (n + 1)).find? (fun k => k * k == n)).getD 0)

/-- `np.sqrt` restricted to the perfect-square rationals arising in the
closed theorems below, where the float value is exactly the rational one. -/
def ratSqrt (q : ℚ) : ℚ := (natSqrtE q.num.toNat : ℚ) / (natSqrtE q.den : ℚ)

/-- The square of dipy's `gfa`: `n·Σ(f-mean)² / ((n-1)·Σf²)`. -/
def gfaSq (odf : List ℚ) : ℚ :=
  let n : ℚ := odf.length
  let mean := odf.sum / n
  (n * (odf.map (fun x => (x - mean) ^ 2)).sum) /
    ((n - 1) * (odf.map (fun x => x ^ 2)).sum)

/-- dipy's `gfa` through the exact square root: exact on the ODFs of the
closed theorems below (constant ODFs, whose gfa is exactly 0). -/
def gfaRat (odf : List ℚ) : ℚ := ratSqrt (gfaSq odf)

/-- `np.linalg.norm` of a 3-vector through the exact square root: exact on
the vectors arising in the closed theorems below. -/
def norm3Rat (p : Vec3) : ℚ := ratSqrt (p.1 ^ 2 + p.2.1 ^ 2 + p.2.2 ^ 2)

/-- The exact-rational instantiation of the external numeric functions; it
agrees with the dipy/numpy originals on every concrete input used in the
closed theorems below. -/
def exactFns : ExternalFns := ⟨gfaRat, norm3Rat, ratSqrt⟩

/-- Spec-side description of one RISH channel: the sum of the squared
coefficients whose order id is `n` (used to compare `compute_rish`'s
reduceat blocks with the per-order energies the spec describes). -/
def orderEnergy (v : Voxel) (ids : List ℕ) (n : ℕ) : ℚ :=
  (((v.zip ids).filter (fun p => p.2 == n)).map (fun p => p.1 * p.1)).sum

/-- Concrete two-direction forward matrix (`C = 1`, `D = 2`) used by the
closed theorems: a single order-0 coefficient evaluated identically at both
sphere directions. -/
def exB : Mat := [[1, 1]]

/-- Concrete sphere vertices matching `exB` (two copies of the x axis, so
the RGB vectors are axis-aligned and their norm is exactly rational). -/
def exVerts : List Vec3 := [(1, 0, 0), (1, 0, 0)]

/-- Concrete two-voxel coefficient volume. -/
def exSh : List Voxel := [[1], [2]]

/-- Concrete peak values for `exSh` (one peak slot per voxel). -/
def exPv : List (List ℚ) := [[5], [7]]

/-- Concrete peak indices for `exSh`: both voxels have one valid peak. -/
def exPi : List (List ℤ) := [[0], [0]]

/-- A concrete stand-in for dipy's `peak_directions` used by closed
theorems: one peak along the x axis, of value 1, from sphere vertex 0. -/
def pdOne : List ℚ → PeakDirections := fun _ => ⟨[(1, 0, 0)], [1], [0]⟩

/-- Concrete forward matrix for a 3-coefficient (order-1) volume over two
directions. -/
def exB3 : Mat := [[1, 1], [0, 0], [0, 0]]

/-- A one-voxel volume whose voxel has non-zero coefficients that sum to
zero: `[1, -1, 0]`. -/
def exCancel : List Voxel := [[1, -1, 0]]

/-- The behaviour dipy documents for `peak_directions` on the inputs the
loop feeds it (a clipped non-negative ODF with at least one retained peak):
values sorted descending and positive, one direction and one source-vertex
index per value, indices non-negative. The theorems about `peaks_from_sh`
assume the external function honours this contract. -/
def PDwf (pd : List ℚ → PeakDirections) : Prop :=
  ∀ odf, ((pd odf).values.Pairwise (· ≥ ·)) ∧
    (∀ x ∈ (pd odf).values, 0 < x) ∧
    (pd odf).dirs.length = (pd odf).values.length ∧
    (pd odf).indices.length = (pd odf).values.length ∧
    (∀ j ∈ (pd odf).indices, 0 ≤ j)

/-- The NUFO value `_maps_from_sh_loop` writes for one voxel — a function
of that voxel alone (proved equal to the loop's output in
`mapsLoopGo_scalars_eq_map`). -/
def mapsNufoVoxel (E : ExternalFns) (B : Mat) (gfa_thr : ℚ)
    (t : Voxel × List ℚ × List ℤ) : ℚ :=
  if anyNonzero t.1 then
    if E.gfaF ((vecMat t.1 B).map (fun x => max x 0)) < gfa_thr then 0
    else if t.2.2.countP (fun j => decide (j > -1)) ≠ 0 then
      (t.2.2.countP (fun j => decide (j > -1)) : ℚ)
    else 0
  else 0

/-- The AFD-max value `_maps_from_sh_loop` writes for one voxel. -/
def mapsAfdMaxVoxel (E : ExternalFns) (B : Mat) (gfa_thr : ℚ)
    (t : Voxel × List ℚ × List ℤ) : ℚ :=
  if anyNonzero t.1 then
    if E.gfaF ((vecMat t.1 B).map (fun x => max x 0)) < gfa_thr then 0
    else if t.2.2.countP (fun j => decide (j > -1)) ≠ 0 then npMax t.2.1
    else 0
  else 0

/-- The AFD-sum value `_maps_from_sh_loop` writes for one voxel. -/
def mapsAfdSumVoxel (E : ExternalFns) (B : Mat) (gfa_thr : ℚ)
    (t : Voxel × List ℚ × List ℤ) : ℚ :=
  if anyNonzero t.1 then
    if E.gfaF ((vecMat t.1 B).map (fun x => max x 0)) < gfa_thr then 0
    else if t.2.2.countP (fun j => decide (j > -1)) ≠ 0 then
      E.sqrtF (dot t.1 t.1)
    else 0
  else 0

/-- A two-voxel volume whose second voxel is identically zero but which is
covered by an explicit all-true mask: `[[1], [0]]`. -/
def exShZ : List Voxel := [[1], [0]]

/-- The value of the sequential `maps_from_sh` on `exShZ` under the explicit
all-true mask (computed in `mapsExZ_eval`). -/
def mapsExZOut : MapsOut :=
  { nufo := [1, 0], afd_max := [5, 0], afd_sum := [1, 0], gfa := [0, 0],
    rgb := [(RVal.fin 255, RVal.fin 0, RVal.fin 0),
            (RVal.fin 0, RVal.fin 0, RVal.fin 0)],
    qa := [[RVal.fin (4 / 5)], [RVal.fin (4 / 5)]] }

/-! ### Helper lemmas -/

theorem getD_map {α β : Type} (f : α → β) (l : List α) (i : ℕ) (d : α) :
    (l.map f).getD i (f d) = f (l.getD i d) := by
  induction l generalizing i with
  | nil => simp [List.getD]
  | cons x xs ih => cases i <;> simp [List.getD_cons_zero, List.getD_cons_succ, ih]

theorem length_maskScatter {α : Type} (z : α) (m : List Bool) (xs : List α) :
    (maskScatter z m xs).length = m.length := by
  induction m generalizing xs with
  | nil => simp [maskScatter]
  | cons b ms ih => cases b <;> cases xs <;> simp [maskScatter, ih]

theorem maskScatter_getD_false {α : Type} (z d : α) (m : List Bool)
    (xs : List α) (i : ℕ) (hi : i < m.length) (hm : m.getD i false = false) :
    (maskScatter z m xs).getD i d = z := by
  induction m generalizing xs i with
  | nil => simp at hi
  | cons b ms ih =>
    cases i with
    | zero =>
      cases b with
      | false => cases xs <;> simp [maskScatter]
      | true => simp [List.getD_cons_zero] at hm
    | succ n =>
      simp only [List.length_cons] at hi
      simp only [List.getD_cons_succ] at hm
      cases b with
      | false => simpa [maskScatter] using ih xs n (by omega) hm
      | true =>
        cases xs with
        | nil => simpa [maskScatter] using ih [] n (by omega) hm
        | cons x xs2 => simpa [maskScatter] using ih xs2 n (by omega) hm

theorem maskSelect_cons {α : Type} (b : Bool) (ms : List Bool) (v : α)
    (vs : List α) :
    maskSelect (b :: ms) (v :: vs) =
      if b then v :: maskSelect ms vs else maskSelect ms vs := by
  cases b <;> simp [maskSelect]

theorem maskScatter_select_map {α β : Type} (f : α → β) (z d : β) (dv : α) :
    ∀ (m : List Bool) (vol : List α) (i : ℕ), m.length = vol.length →
      i < m.length → m.getD i false = true →
      (maskScatter z m ((maskSelect m vol).map f)).getD i d = f (vol.getD i dv) := by
  intro m
  induction m with
  | nil => intro vol i _ hi; simp at hi
  | cons b ms ih =>
    intro vol i hlen hi hm
    cases vol with
    | nil => simp at hlen
    | cons v vs =>
      simp only [List.length_cons, Nat.succ.injEq] at hlen
      rw [maskSelect_cons]
      cases i with
      | zero =>
        simp only [List.getD_cons_zero] at hm
        subst hm
        simp [maskScatter, List.getD_cons_zero]
      | succ n =>
        simp only [List.getD_cons_succ] at hm
        simp only [List.length_cons] at hi
        cases b with
        | false =>
          simpa [maskScatter, List.getD_cons_succ] using
            ih vs n hlen (by omega) hm
        | true =>
          simpa [maskScatter, List.getD_cons_succ] using
            ih vs n hlen (by omega) hm

theorem sum_ite_range_all (n q r : ℕ) (h : n ≤ r) :
    ((List.range n).map (fun i => if i < r then q + 1 else q)).sum = n * (q + 1) := by
  induction n with
  | zero => simp
  | succ k ih =>
    rw [List.range_succ]
    simp only [List.map_append, List.sum_append, List.map_cons, List.map_nil,
      List.sum_cons, List.sum_nil]
    rw [ih (by omega), if_pos (by omega : k < r)]
    ring

theorem sum_ite_range (n q r : ℕ) (h : r ≤ n) :
    ((List.range n).map (fun i => if i < r then q + 1 else q)).sum = n * q + r := by
  induction n with
  | zero =>
    have : r = 0 := by omega
    simp [this]
  | succ k ih =>
    by_cases hr : r ≤ k
    · rw [List.range_succ]
      simp only [List.map_append, List.sum_append, List.map_cons, List.map_nil,
        List.sum_cons, List.sum_nil]
      rw [ih hr, if_neg (by omega : ¬ k < r)]
      ring
    · have hre : r = k + 1 := by omega
      subst hre
      rw [sum_ite_range_all (r := k + 1) _ _ le_rfl]
      ring

theorem arraySplitSizes_sum (len n : ℕ) (h : 1 ≤ n) :
    (arraySplitSizes len n).sum = len := by
  unfold arraySplitSizes
  rw [sum_ite_range n (len / n) (len % n) (le_of_lt (Nat.mod_lt _ h))]
  exact Nat.div_add_mod len n

theorem flatten_splitBySizes {α : Type} :
    ∀ (ss : List ℕ) (xs : List α), xs.length ≤ ss.sum →
      (splitBySizes ss xs).flatten = xs := by
  intro ss
  induction ss with
  | nil =>
    intro xs h
    simp only [List.sum_nil, Nat.le_zero, List.length_eq_zero] at h
    simp [splitBySizes, h]
  | cons s ss ih =>
    intro xs h
    simp only [splitBySizes, List.flatten_cons]
    rw [ih (xs.drop s) (by simp only [List.length_drop, List.sum_cons] at h ⊢; omega)]
    exact List.take_append_drop s xs

theorem flatten_arraySplit {α : Type} (xs : List α) (n : ℕ) (h : 1 ≤ n) :
    (arraySplit xs n).flatten = xs :=
  flatten_splitBySizes _ _ (by rw [arraySplitSizes_sum xs.length n h])

theorem splitBySizes_map {α β : Type} (f : α → β) :
    ∀ (ss : List ℕ) (xs : List α),
      splitBySizes ss (xs.map f) = (splitBySizes ss xs).map (List.map f) := by
  intro ss
  induction ss with
  | nil => intro xs; simp [splitBySizes]
  | cons s ss ih =>
    intro xs
    simp only [splitBySizes, ← List.map_take, ← List.map_drop, ih]
    simp

theorem flatten_map_arraySplit {α β : Type} (f : α → β) (xs : List α) (n : ℕ)
    (h : 1 ≤ n) :
    ((arraySplit xs n).map (List.map f)).flatten = xs.map f := by
  have h2 : arraySplit (xs.map f) n = (arraySplit xs n).map (List.map f) := by
    unfold arraySplit
    rw [List.length_map]
    exact splitBySizes_map f _ xs
  rw [← h2, flatten_arraySplit _ n h]

theorem tmax_eq_neginf (a b : Tracker) :
    tmax a b = Tracker.neginf ↔ a = Tracker.neginf ∧ b = Tracker.neginf := by
  cases a <;> cases b <;> simp [tmax]

theorem consVoxel_nufo (a b c : ℚ) (r : Vec3) (g : ℚ) (out : MapsLoopOut) :
    (consVoxel a b c r g out).nufo = a :: out.nufo := rfl

theorem consVoxel_afd_max (a b c : ℚ) (r : Vec3) (g : ℚ) (out : MapsLoopOut) :
    (consVoxel a b c r g out).afd_max = b :: out.afd_max := rfl

theorem consVoxel_afd_sum (a b c : ℚ) (r : Vec3) (g : ℚ) (out : MapsLoopOut) :
    (consVoxel a b c r g out).afd_sum = c :: out.afd_sum := rfl

theorem consVoxel_rgb (a b c : ℚ) (r : Vec3) (g : ℚ) (out : MapsLoopOut) :
    (consVoxel a b c r g out).rgb = r :: out.rgb := rfl

theorem consVoxel_gfa (a b c : ℚ) (r : Vec3) (g : ℚ) (out : MapsLoopOut) :
    (consVoxel a b c r g out).gfa = g :: out.gfa := rfl

theorem consVoxel_qa (a b c : ℚ) (r : Vec3) (g : ℚ) (out : MapsLoopOut) :
    (consVoxel a b c r g out).qa = out.qa := rfl

theorem consVoxel_max_odf (a b c : ℚ) (r : Vec3) (g : ℚ) (out : MapsLoopOut) :
    (consVoxel a b c r g out).max_odf = out.max_odf := rfl

theorem consVoxel_global_max (a b c : ℚ) (r : Vec3) (g : ℚ) (out : MapsLoopOut) :
    (consVoxel a b c r g out).global_max = out.global_max := rfl

theorem natSqrtE_0 : natSqrtE 0 = 0 := rfl

theorem natSqrtE_1 : natSqrtE 1 = 1 := rfl

theorem natSqrtE_4 : natSqrtE 4 = 2 := rfl

theorem natSqrtE_16 : natSqrtE 16 = 4 := rfl

/-- Value of the sequential `maps_from_sh` on the concrete two-voxel
example. Voxel 0 has ODF `[1,1]`, sum 2, peak value 5; voxel 1 has ODF
`[2,2]`, sum 4, peak value 7; the `qa_map` rebinding leaves the LAST
voxel's row `[5]`, broadcast over both voxels, and the RGB divisor is the
true max-ODF 4. -/
theorem mapsEx_seq_eval :
    maps_from_sh exactFns exB exVerts exSh 1 exPv exPi 1 none 0 (some 1) 4 =
    some { nufo := [1, 1], afd_max := [5, 7], afd_sum := [1, 2], gfa := [0, 0],
           rgb := [(RVal.fin (255 / 2), RVal.fin 0, RVal.fin 0),
                   (RVal.fin 255, RVal.fin 0, RVal.fin 0)],
           qa := [[RVal.fin (5 / 7)], [RVal.fin (5 / 7)]] } := by
  norm_num [maps_from_sh, maps_from_sh_loop, mapsLoopGo, consVoxel, mapsFinish, mapsReduce,
    maskSelect, maskScatter, defaultMask, normWorkersMaps,
    show order_from_ncoef 1 false = some 0 from by decide,
    exB, exVerts, exSh, exPv, exPi,
    vecMat, sumVecs, dot, anyNonzero, npMax, npMin, rgbVec, scaleVec, qaRows,
    tmax, divByTracker, rmul255, exactFns, gfaRat, gfaSq, ratSqrt, norm3Rat,
    List.countP_cons,
    show Int.toNat 0 = 0 from rfl, show Int.toNat 4 = 4 from rfl,
    show Int.toNat 16 = 16 from rfl,
    natSqrtE_0, natSqrtE_1, natSqrtE_4, natSqrtE_16]

/-- Value of the two-worker `maps_from_sh` on the same example: each voxel
is its own chunk, so each chunk's `qa_map` row survives (rows `[4]` and
`[5]`), and the buggy reduction folds the RGB divisor through the
global-max accumulator, giving 5 instead of the true max-ODF 4. -/
theorem mapsEx_par_eval :
    maps_from_sh exactFns exB exVerts exSh 1 exPv exPi 1 none 0 (some 2) 4 =
    some { nufo := [1, 1], afd_max := [5, 7], afd_sum := [1, 2], gfa := [0, 0],
           rgb := [(RVal.fin 102, RVal.fin 0, RVal.fin 0),
                   (RVal.fin 204, RVal.fin 0, RVal.fin 0)],
           qa := [[RVal.fin (4 / 7)], [RVal.fin (5 / 7)]] } := by
  norm_num [maps_from_sh, maps_from_sh_loop, mapsLoopGo, consVoxel, mapsFinish, mapsReduce,
    maskSelect, maskScatter, defaultMask, normWorkersMaps,
    arraySplit, arraySplitSizes, splitBySizes, List.range_succ,
    show order_from_ncoef 1 false = some 0 from by decide,
    exB, exVerts, exSh, exPv, exPi,
    vecMat, sumVecs, dot, anyNonzero, npMax, npMin, rgbVec, scaleVec, qaRows,
    tmax, divByTracker, rmul255, exactFns, gfaRat, gfaSq, ratSqrt, norm3Rat,
    List.countP_cons,
    show Int.toNat 0 = 0 from rfl, show Int.toNat 4 = 4 from rfl,
    show Int.toNat 16 = 16 from rfl,
    natSqrtE_0, natSqrtE_1, natSqrtE_4, natSqrtE_16]

/-! ### Claim theorems -/

/-- C1: the claim says every chunked operation returns bit-identical arrays
for any worker count. REFUTED on `maps_from_sh`: on the concrete two-voxel
volume, one worker returns the QA rows `[[5/7], [5/7]]` (the rebound
`qa_map` row of the LAST voxel, broadcast over the whole volume) while two
workers return `[[4/7], [5/7]]` (each chunk's own last row); the RGB maps
differ as well (divisor 4 vs 5, by the reduction bug shown in C2). -/
theorem c1_maps_from_sh_differs_across_worker_counts :
    (maps_from_sh exactFns exB exVerts exSh 1 exPv exPi 1 none 0 (some 1) 4).map
        MapsOut.qa = some [[RVal.fin (5 / 7)], [RVal.fin (5 / 7)]] ∧
    (maps_from_sh exactFns exB exVerts exSh 1 exPv exPi 1 none 0 (some 2) 4).map
        MapsOut.qa = some [[RVal.fin (4 / 7)], [RVal.fin (5 / 7)]] ∧
    ([[RVal.fin ((5 : ℚ) / 7)], [RVal.fin (5 / 7)]] : List (List RVal)) ≠
      [[RVal.fin ((4 : ℚ) / 7)], [RVal.fin (5 / 7)]] := by
  refine ⟨?_, ?_, ?_⟩
  · rw [mapsEx_seq_eval]; rfl
  · rw [mapsEx_par_eval]; rfl
  · simp only [ne_eq, List.cons.injEq, RVal.fin.injEq, and_true]
    norm_num

/-- C2: the claim says the phase-2 reduction sets the volume max-ODF to the
maximum over all chunk-local max-ODF trackers. REFUTED: source line 504
reads `all_time_max_odf = max(all_time_global_max, max_odf)`, folding
through the OTHER accumulator, so for chunk results with
`(max_odf, global_max)` pairs `(5, 1)` and `(2, 1)` the reduction returns 2
as the max-ODF divisor instead of `max 5 2 = 5`. (The second conjunct
verifies that the global-max component, line 505, is reduced correctly on
this input, and the divisions by the reduced trackers are those of
`mapsFinish`.) -/
theorem c2_maps_reduce_wrong_max_odf :
    mapsReduce [(5, Tracker.val 1), (2, Tracker.val 1)] =
      (Tracker.val 2, Tracker.val 1) ∧
    max (5 : ℚ) 2 = 5 ∧
    Tracker.val (2 : ℚ) ≠ Tracker.val (5 : ℚ) := by
  refine ⟨?_, by norm_num, ?_⟩
  · simp only [mapsReduce, List.foldl_cons, List.foldl_nil, tmax, max_def]
    norm_num
  · simp only [ne_eq, Tracker.val.injEq]
    norm_num

/-- C3: the claim says the returned QA map holds, at each qualifying voxel,
that voxel's own per-peak values minus its ODF minimum, and zero rows
elsewhere. REFUTED: line 402 rebinds the whole `qa_map` variable to a
single row, so the sequential `maps_from_sh` broadcasts the LAST qualifying
voxel's row to every masked voxel: on the concrete example, voxel 0 (peak
value 5, ODF minimum 1, global max 7) should read `(5-1)/7 = 4/7` but
reads `5/7`. -/
theorem c3_qa_map_broadcasts_last_voxel :
    (maps_from_sh exactFns exB exVerts exSh 1 exPv exPi 1 none 0 (some 1) 4).map
        MapsOut.qa = some [[RVal.fin (5 / 7)], [RVal.fin (5 / 7)]] ∧
    RVal.fin ((5 : ℚ) / 7) ≠ RVal.fin ((5 - 1) / 7) := by
  refine ⟨?_, ?_⟩
  · rw [mapsEx_seq_eval]; rfl
  · simp only [ne_eq, RVal.fin.injEq]
    norm_num

/-- C6: the claim says `convert_sh_to_sf` returns the requested dtype with
both the matrix and the accumulation in that precision. The returned array
does have the requested dtype and shape `(X,Y,Z,D)`, but the claim is
REFUTED for the accumulation: `_convert_sh_to_sf_loop` allocates its buffer
with a hard-coded `np.float32` (line 669), so a float64 request is
accumulated through a float32 buffer. -/
theorem c6_convert_sh_to_sf_buffer_is_float32 :
    (convert_sh_to_sf [[1, 1]] [[1]] 1 none DType.float64 false 2 (some 1) 4).map
        TypedArr.dtype = some DType.float64 ∧
    (convert_sh_to_sf [[1, 1]] [[1]] 1 none DType.float64 false 2 (some 1) 4).map
        TypedArr.data = some [[1, 1]] ∧
    (convert_sh_to_sf_loop [[1]] 2 [[1, 1]]).dtype = DType.float32 ∧
    DType.float32 ≠ DType.float64 := by
  refine ⟨?_, ?_, rfl, by simp⟩
  all_goals
    norm_num [convert_sh_to_sf, convert_sh_to_sf_loop, defaultMask, maskSelect,
      maskScatter, normWorkersShToSf, anyNonzero, vecMat, sumVecs,
      show order_from_ncoef 1 false = some 0 from by decide]

/-- C4 counterexample: the claim says the default mask marks exactly the
voxels with at least one non-zero coefficient. REFUTED: the mask is
`np.sum(...).astype(bool)`, so the voxel `[1, -1, 0]` — which has non-zero
coefficients but zero coefficient SUM — is left out, and `peaks_from_sh`
zero-fills it, whereas running the same voxel under an explicit mask
extracts a peak of value 1. -/
theorem c4_default_mask_counterexample :
    defaultMask exCancel = [false] ∧ anyNonzero [1, -1, 0] = true ∧
    (peaks_from_sh pdOne exB3 exCancel 3 none 0 false 1 false (some 1) 4).map
        (fun r => r.2.1) = some [[0]] ∧
    (peaks_from_sh pdOne exB3 exCancel 3 (some [true]) 0 false 1 false
        (some 1) 4).map (fun r => r.2.1) = some [[1]] ∧
    ([[(0 : ℚ)]] : List (List ℚ)) ≠ [[1]] := by
  refine ⟨?_, ?_, ?_, ?_, by norm_num⟩
  · norm_num [defaultMask, exCancel]
  · norm_num [anyNonzero]
  all_goals
    norm_num [peaks_from_sh, peaks_from_sh_loop, peaksVoxel, defaultMask,
      maskSelect, maskScatter, normWorkersPeaks, anyNonzero, vecMat, sumVecs,
      sliceAssign, exB3, exCancel, pdOne,
      show order_from_ncoef 3 false = some 1 from by decide]

/-- C7 counterexample: the claim says every unused peak slot of the
`peaks_from_sh` output (in particular all slots of an all-zero voxel) has
index -1. REFUTED under the default mask: an all-zero voxel is excluded
from the mask, and out-of-mask voxels are zero-filled in ALL output arrays,
including the index array — its slot reads 0, not -1. -/
theorem c7_zero_voxel_default_mask_index_zero :
    peaks_from_sh pdOne exB [[0]] 1 none 0 false 1 false (some 1) 4 =
      some ([[(0, 0, 0)]], [[0]], [[0]]) ∧
    (0 : ℤ) ≠ -1 := by
  refine ⟨?_, by decide⟩
  norm_num [peaks_from_sh, peaks_from_sh_loop, peaksVoxel, defaultMask,
    maskSelect, maskScatter, normWorkersPeaks, anyNonzero, exB, pdOne,
    show order_from_ncoef 1 false = some 0 from by decide]

/-- C9 counterexample: the claim says a worker count of 0 selects all
available hardware threads in every chunked operation. REFUTED for
`maps_from_sh` (and `convert_sh_basis`, which shares the normalisation):
their normalisation only replaces counts `< 0`, so 0 is kept and the
operation fails at the chunk split instead of autodetecting
(`peaks_from_sh`, whose normalisation replaces counts `<= 0`, does
autodetect). -/
theorem c9_worker_count_zero_not_autodetected :
    normWorkersPeaks 4 (some 0) = 4 ∧
    normWorkersMaps 4 (some 0) = 0 ∧
    maps_from_sh exactFns exB exVerts exSh 1 exPv exPi 1 none 0 (some 0) 4 =
      none ∧
    (0 : ℤ) ≠ 4 := by
  refine ⟨by decide, by decide, ?_, by decide⟩
  norm_num [maps_from_sh, normWorkersMaps,
    show order_from_ncoef 1 false = some 0 from by decide]

/-- C10 counterexample: the claim says that whenever no masked voxel both
reaches the GFA threshold and has a valid peak, the global-max tracker
stays at -inf. REFUTED: a voxel BELOW the threshold also feeds the tracker,
with its ODF maximum (line 397). Here the only voxel has gfa 0 < 1 and no
valid peak (all indices -1), yet the tracker ends at its ODF max 1. -/
theorem c10_subthreshold_voxel_updates_global_max :
    (maps_from_sh_loop exactFns exB exVerts 1 [[1]] [[0]] [[-1]] 1).global_max =
      Tracker.val 1 ∧
    gfaRat [1, 1] = 0 ∧
    List.countP (fun i => decide (i > -1)) [(-1 : ℤ)] = 0 ∧
    Tracker.val (1 : ℚ) ≠ Tracker.neginf := by
  refine ⟨?_, ?_, by decide, by simp⟩
  · norm_num [maps_from_sh_loop, mapsLoopGo, consVoxel, anyNonzero, vecMat, sumVecs,
      npMax, npMin, tmax, exB, exVerts, exactFns, gfaRat, gfaSq, ratSqrt,
      rgbVec, scaleVec, List.countP_cons, natSqrtE_0, natSqrtE_1,
      show Int.toNat 0 = 0 from rfl, max_def]
  · norm_num [gfaRat, gfaSq, ratSqrt, natSqrtE_0, natSqrtE_1,
      show Int.toNat 0 = 0 from rfl]

/-- Every entry of a sorted (≤) list is at least its head. -/
theorem sorted_headI_le {l : List ℚ} (hs : l.Sorted (· ≤ ·)) {x : ℚ}
    (hx : x ∈ l) : l.headI ≤ x := by
  cases l with
  | nil => simp at hx
  | cons a t =>
    rcases List.mem_cons.mp hx with h | h
    · simp [h]
    · exact (List.sorted_cons.mp hs).1 x h

/-- C5: CONFIRMED (spec-modelled: `identify_shells` lives outside the
verified sources and is modelled from the spec as the distinct b-values).
`compute_sh_coefficients` raises exactly when the distinct shells do not
number two or the lowest one exceeds the threshold (equivalently: every
b-value exceeds it), independently of the fitting function — the check runs
before any fitting work; the b-values `{0,0,0,1000,1000}` with threshold 50
pass, `{0,1000,2000}` fail. -/
theorem c5_single_shell_validation {α : Type} (fit : List ℚ → α)
    (bvals : List ℚ) (thr : ℚ) :
    ((∃ e, compute_sh_coefficients fit bvals thr = Except.error e) ↔
      ((identify_shells bvals).length ≠ 2 ∨ ∀ x ∈ bvals, thr < x)) ∧
    compute_sh_coefficients fit [0, 0, 0, 1000, 1000] 50 =
      Except.ok (fit [0, 0, 0, 1000, 1000]) ∧
    (∃ e, compute_sh_coefficients fit [0, 1000, 2000] 50 = Except.error e) := by
  have key : ∀ (bv : List ℚ) (t : ℚ),
      singleShellViolated bv t = true ↔
        ((identify_shells bv).length ≠ 2 ∨ ∀ x ∈ bv, t < x) := by
    intro bv t
    unfold singleShellViolated
    simp only [Bool.or_eq_true, decide_eq_true_eq]
    have hperm := List.perm_insertionSort (· ≤ ·) (identify_shells bv)
    have hlen := hperm.length_eq
    constructor
    · rintro (h | h)
      · exact Or.inl (by omega)
      · by_cases h2 : (identify_shells bv).length = 2
        · refine Or.inr (fun x hx => ?_)
          have hxs : x ∈ (identify_shells bv).insertionSort (· ≤ ·) :=
            hperm.mem_iff.mpr (List.mem_dedup.mpr hx)
          have := sorted_headI_le
            (List.sorted_insertionSort (· ≤ ·) (identify_shells bv)) hxs
          linarith
        · exact Or.inl h2
    · rintro (h | h)
      · exact Or.inl (by omega)
      · by_cases h2 : ((identify_shells bv).insertionSort (· ≤ ·)).length ≠ 2
        · exact Or.inl h2
        · refine Or.inr ?_
          have hne : (identify_shells bv).insertionSort (· ≤ ·) ≠ [] := by
            intro hnil
            rw [hnil] at h2
            simp at h2
          have hmem : ((identify_shells bv).insertionSort (· ≤ ·)).headI ∈
              (identify_shells bv).insertionSort (· ≤ ·) := by
            cases hl : (identify_shells bv).insertionSort (· ≤ ·) with
            | nil => exact absurd hl hne
            | cons a t => simp
          have hmem2 : ((identify_shells bv).insertionSort (· ≤ ·)).headI ∈ bv :=
            List.mem_dedup.mp (hperm.mem_iff.mp hmem)
          exact h _ hmem2
  refine ⟨?_, ?_, ?_⟩
  · unfold compute_sh_coefficients
    by_cases hv : singleShellViolated bvals thr
    · simp only [hv, if_true]
      rw [← key bvals thr]
      simp [hv]
    · simp only [hv, if_false, Bool.false_eq_true]
      rw [← key bvals thr]
      simp [hv]
  · have hval : singleShellViolated [0, 0, 0, 1000, 1000] 50 = false := by
      norm_num [singleShellViolated, identify_shells, List.insertionSort,
        List.orderedInsert, List.dedup_cons_of_mem, List.dedup_cons_of_not_mem,
        List.dedup_nil]
    simp [compute_sh_coefficients, hval]
  · have hval : singleShellViolated [0, 1000, 2000] 50 = true := by
      norm_num [singleShellViolated, identify_shells, List.insertionSort,
        List.orderedInsert, List.dedup_cons_of_mem, List.dedup_cons_of_not_mem,
        List.dedup_nil]
    exact ⟨"Can only work on single shell signals.",
      by simp [compute_sh_coefficients, hval]⟩

theorem segSums_cons2 (c c2 : ℕ) (cs : List ℕ) (xs : List ℚ) :
    segSums (c :: c2 :: cs) xs = (xs.take c).sum :: segSums (c2 :: cs) (xs.drop c) :=
  rfl

theorem segSums_length (cs : List ℕ) (xs : List ℚ) :
    (segSums cs xs).length = cs.length := by
  induction cs generalizing xs with
  | nil => simp [segSums]
  | cons c cs ih =>
    cases cs with
    | nil => simp [segSums]
    | cons c2 cs2 => simp [segSums, ih]

theorem sum_segSums (cs : List ℕ) (xs : List ℚ) (h : cs ≠ []) :
    (segSums cs xs).sum = xs.sum := by
  induction cs generalizing xs with
  | nil => exact absurd rfl h
  | cons c cs ih =>
    cases cs with
    | nil => simp [segSums]
    | cons c2 cs2 =>
      simp only [segSums, List.sum_cons]
      rw [ih (xs.drop c) (by simp)]
      rw [← List.sum_append, List.take_append_drop]

theorem orderEnergy_replicate (n k : ℕ) (v : List ℚ) :
    orderEnergy v (List.replicate k n) n =
      ((v.take k).map (fun x => x * x)).sum := by
  induction k generalizing v with
  | zero => simp [orderEnergy]
  | succ k ih =>
    cases v with
    | nil => simp [orderEnergy]
    | cons x xs =>
      simp only [List.replicate_succ, List.take_succ_cons, List.map_cons,
        List.sum_cons, orderEnergy, List.zip_cons_cons, List.filter_cons,
        beq_self_eq_true, if_true]
      have := ih xs
      simp only [orderEnergy] at this
      simp [this]

theorem orderEnergy_not_mem (v : List ℚ) (ids : List ℕ) (m : ℕ)
    (h : ∀ x ∈ ids, x ≠ m) : orderEnergy v ids m = 0 := by
  induction ids generalizing v with
  | nil => simp [orderEnergy]
  | cons j ids ih =>
    cases v with
    | nil => simp [orderEnergy]
    | cons x xs =>
      have hj : (j == m) = false := by
        simp only [beq_eq_false_iff_ne, ne_eq]
        exact h j (by simp)
      simp only [orderEnergy, List.zip_cons_cons, List.filter_cons, hj,
        Bool.false_eq_true, if_false]
      exact ih xs (fun y hy => h y (by simp [hy]))

theorem orderEnergy_append (v : List ℚ) (ids1 ids2 : List ℕ) (m : ℕ) :
    orderEnergy v (ids1 ++ ids2) m =
      orderEnergy (v.take ids1.length) ids1 m +
        orderEnergy (v.drop ids1.length) ids2 m := by
  induction ids1 generalizing v with
  | nil => simp [orderEnergy]
  | cons j ids ih =>
    cases v with
    | nil => simp [orderEnergy]
    | cons x xs =>
      simp only [List.cons_append, orderEnergy, List.zip_cons_cons,
        List.filter_cons, List.length_cons, List.take_succ_cons,
        List.drop_succ_cons]
      have hih := ih xs
      simp only [orderEnergy] at hih
      by_cases hj : (j == m) = true
      · simp only [hj, if_true, List.map_cons, List.sum_cons]
        rw [hih]
        ring
      · have hj2 : (j == m) = false := by simpa using hj
        simp only [hj2, Bool.false_eq_true, if_false]
        rw [hih]

theorem segSums_blocks (os : List ℕ) (v : List ℚ) (hne : os ≠ [])
    (hnd : os.Nodup) (hlen : v.length = (os.map (fun n => 2 * n + 1)).sum) :
    segSums (os.map (fun n => 2 * n + 1)) (v.map (fun x => x * x)) =
      os.map (fun n =>
        orderEnergy v (os.flatMap (fun k => List.replicate (2 * k + 1) k)) n) := by
  induction os generalizing v with
  | nil => exact absurd rfl hne
  | cons n os ih =>
    cases os with
    | nil =>
      simp only [List.map_cons, List.map_nil, segSums, List.flatMap_cons,
        List.flatMap_nil, List.append_nil]
      rw [orderEnergy_replicate]
      simp only [List.map_cons, List.map_nil, List.sum_cons, List.sum_nil] at hlen
      rw [List.take_of_length_le (by omega)]
    | cons n2 os2 =>
      have hn_notin : n ∉ (n2 :: os2) := (List.nodup_cons.mp hnd).1
      have hnd2 : (n2 :: os2).Nodup := (List.nodup_cons.mp hnd).2
      have hlen2 : (v.drop (2 * n + 1)).length =
          ((n2 :: os2).map (fun k => 2 * k + 1)).sum := by
        simp only [List.length_drop]
        simp only [List.map_cons, List.sum_cons] at hlen ⊢
        omega
      have hsplit : ∀ m, orderEnergy v
          ((n :: n2 :: os2).flatMap (fun k => List.replicate (2 * k + 1) k)) m =
          orderEnergy (v.take (2 * n + 1)) (List.replicate (2 * n + 1) n) m +
            orderEnergy (v.drop (2 * n + 1))
              ((n2 :: os2).flatMap (fun k => List.replicate (2 * k + 1) k)) m := by
        intro m
        rw [List.flatMap_cons]
        have happ := orderEnergy_append v (List.replicate (2 * n + 1) n)
          ((n2 :: os2).flatMap (fun k => List.replicate (2 * k + 1) k)) m
        rwa [List.length_replicate] at happ
      have hrep_ne : ∀ m, m ≠ n →
          orderEnergy (v.take (2 * n + 1)) (List.replicate (2 * n + 1) n) m = 0 := by
        intro m hm
        exact orderEnergy_not_mem _ _ _
          (fun x hx => by rw [List.eq_of_mem_replicate hx]; exact fun h => hm h.symm)
      have htail_ne : ∀ x ∈ (n2 :: os2).flatMap
          (fun k => List.replicate (2 * k + 1) k), x ≠ n := by
        intro x hx hxn
        rcases List.mem_flatMap.mp hx with ⟨k, hk, hxk⟩
        rw [List.eq_of_mem_replicate hxk] at hxn
        subst hxn
        exact hn_notin hk
      rw [show ((n :: n2 :: os2).map (fun k => 2 * k + 1)) =
        (2 * n + 1) :: (2 * n2 + 1) :: os2.map (fun k => 2 * k + 1) from rfl]
      rw [segSums_cons2, List.map_cons]
      congr 1
      · -- head entry
        rw [hsplit n, orderEnergy_replicate, List.take_take, min_self]
        rw [orderEnergy_not_mem _ _ _ htail_ne, add_zero, ← List.map_take]
      · -- tail entries
        rw [← List.map_drop]
        rw [show ((2 * n2 + 1) :: os2.map (fun k => 2 * k + 1)) =
          (n2 :: os2).map (fun k => 2 * k + 1) from rfl]
        rw [ih (v.drop (2 * n + 1)) (by simp) hnd2 hlen2]
        apply List.map_congr_left
        intro m hm
        have hmn : m ≠ n := fun h => hn_notin (h ▸ hm)
        rw [hsplit m, hrep_ne m hmn, zero_add]

theorem orderList_nodup (o : ℕ) (full : Bool) : (orderList o full).Nodup := by
  unfold orderList
  cases full with
  | true => simpa using List.nodup_range (o + 1)
  | false =>
    simp only [Bool.false_eq_true, if_false]
    exact List.Nodup.map (fun a b h => by omega) (List.nodup_range (o / 2 + 1))

theorem orderList_sorted (o : ℕ) (full : Bool) :
    (orderList o full).Sorted (· ≤ ·) := by
  unfold orderList
  cases full with
  | true => simpa using (List.pairwise_lt_range _).imp le_of_lt
  | false =>
    simp only [Bool.false_eq_true, if_false]
    exact ((List.pairwise_lt_range _).imp le_of_lt).map _ (fun h => by omega)

theorem mem_orderIds (o : ℕ) (full : Bool) (x : ℕ) :
    x ∈ orderIds o full ↔ x ∈ orderList o full := by
  unfold orderIds
  constructor
  · intro hx
    rcases List.mem_flatMap.mp hx with ⟨k, hk, hxk⟩
    rw [List.eq_of_mem_replicate hxk]
    exact hk
  · intro hx
    exact List.mem_flatMap.mpr ⟨x, hx, List.mem_replicate.mpr ⟨by omega, rfl⟩⟩

theorem orders_eq (o : ℕ) (full : Bool) :
    ((orderIds o full).dedup).insertionSort (· ≤ ·) = orderList o full := by
  have hperm : (orderIds o full).dedup.Perm (orderList o full) := by
    apply List.Subperm.antisymm
    · apply List.subperm_of_subset (List.nodup_dedup _)
      intro x hx
      exact (mem_orderIds o full x).mp (List.mem_dedup.mp hx)
    · apply List.subperm_of_subset (orderList_nodup o full)
      intro x hx
      exact List.mem_dedup.mpr ((mem_orderIds o full x).mpr hx)
  exact List.eq_of_perm_of_sorted
    ((List.perm_insertionSort _ _).trans hperm)
    (List.sorted_insertionSort _ _) (orderList_sorted o full)

theorem getD_zipWith {α β γ : Type} (f : α → β → γ) (a : List α) (b : List β)
    (i : ℕ) (da : α) (db : β) (dc : γ) (hia : i < a.length) (hib : i < b.length) :
    (List.zipWith f a b).getD i dc = f (a.getD i da) (b.getD i db) := by
  induction a generalizing b i with
  | nil => simp at hia
  | cons x xs ih =>
    cases b with
    | nil => simp at hib
    | cons y ys =>
      cases i with
      | zero => simp
      | succ n =>
        simp only [List.zipWith_cons_cons, List.getD_cons_succ]
        exact ih ys n (by simpa using hia) (by simpa using hib)

theorem getD_map' {α β : Type} (f : α → β) (l : List α) (i : ℕ) (d : α)
    (d2 : β) (hi : i < l.length) :
    (l.map f).getD i d2 = f (l.getD i d) := by
  induction l generalizing i with
  | nil => simp at hi
  | cons x xs ih =>
    cases i with
    | zero => simp
    | succ n =>
      simp only [List.map_cons, List.getD_cons_succ]
      exact ih n (by simpa using hi)

theorem orderList_ne_nil (o : ℕ) (full : Bool) : orderList o full ≠ [] := by
  unfold orderList
  cases full <;> simp [List.range_succ]

/-- C8: CONFIRMED. For every voxel inside the mask the RISH channel sums
reproduce the sum of squared coefficients (energy conservation), each
channel is the per-order energy (the sum of squares over the indices of one
SH order), masked-out voxels are exactly zero rows, and the returned order
list is strictly ascending with one entry per output channel. `hcnt` pins
the coefficient count to the basis layout (the per-order index counts fill
the row exactly), which holds for every well-formed SH volume. -/
theorem c8_compute_rish_energy (sh : List Voxel) (C : ℕ) (mask : List Bool)
    (full : Bool) (o : ℕ) (rish : List (List ℚ)) (orders : List ℕ)
    (horder : order_from_ncoef C full = some o)
    (hcnt : (nIndicesPerOrder o full).sum = C)
    (hrows : ∀ v ∈ sh, v.length = C)
    (hlen : mask.length = sh.length)
    (hres : compute_rish sh C (some mask) full = some (rish, orders)) :
    (∀ i, i < sh.length → mask.getD i false = true →
      (rish.getD i []).sum = ((sh.getD i []).map (fun x => x * x)).sum ∧
      rish.getD i [] = (orderList o full).map
        (orderEnergy (sh.getD i []) (orderIds o full))) ∧
    (∀ i, i < sh.length → mask.getD i false = false →
      rish.getD i [] = List.replicate orders.length 0) ∧
    orders.Pairwise (· < ·) ∧
    (∀ i, i < rish.length → (rish.getD i []).length = orders.length) := by
  simp only [compute_rish, horder] at hres
  rw [Option.some.injEq, Prod.mk.injEq] at hres
  obtain ⟨hrish, horders⟩ := hres
  have horders2 : orders = orderList o full := by
    rw [← horders, orders_eq]
  have hshmlen : (List.zipWith
      (fun (b : Bool) (v : Voxel) => if b then v else v.map (fun _ => (0 : ℚ)))
      mask sh).length = sh.length := by
    rw [List.length_zipWith, hlen, min_self]
  have hr1len : ((List.zipWith
      (fun (b : Bool) (v : Voxel) => if b then v else v.map (fun _ => (0 : ℚ)))
      mask sh).map
        (fun v => segSums (nIndicesPerOrder o full) (v.map (fun x => x * x)))).length
      = sh.length := by
    rw [List.length_map, hshmlen]
  have hrlen : rish.length = sh.length := by
    rw [← hrish, List.length_zipWith, hlen, hr1len, min_self]
  have hgetD : ∀ i, i < sh.length →
      rish.getD i [] =
        (if mask.getD i false then
          segSums (nIndicesPerOrder o full)
            (((if mask.getD i false then sh.getD i []
               else (sh.getD i []).map (fun _ => (0 : ℚ)))).map (fun x => x * x))
         else (segSums (nIndicesPerOrder o full)
            (((if mask.getD i false then sh.getD i []
               else (sh.getD i []).map (fun _ => (0 : ℚ)))).map
                 (fun x => x * x))).map (fun _ => (0 : ℚ))) := by
    intro i hi
    rw [← hrish]
    rw [getD_zipWith _ _ _ i false
      (segSums (nIndicesPerOrder o full) (([] : List ℚ).map (fun x => x * x))) []
      (by omega) (by rw [hr1len]; omega)]
    rw [getD_map' _ _ i ([] : Voxel) _ (by rw [hshmlen]; omega)]
    rw [getD_zipWith _ _ _ i false ([] : Voxel) [] (by omega) (by omega)]
  have hcounts_ne : nIndicesPerOrder o full ≠ [] := by
    unfold nIndicesPerOrder
    simpa using orderList_ne_nil o full
  refine ⟨?_, ?_, ?_, ?_⟩
  · intro i hi hm
    have hv : sh.getD i [] ∈ sh := by
      rw [List.getD_eq_getElem sh [] hi]
      apply List.getElem_mem
    have hvlen : (sh.getD i []).length = C := hrows _ hv
    have := hgetD i hi
    rw [hm] at this
    simp only [if_true] at this
    constructor
    · rw [this, sum_segSums _ _ hcounts_ne]
    · rw [this]
      exact segSums_blocks (orderList o full) (sh.getD i [])
        (orderList_ne_nil o full) (orderList_nodup o full)
        (by rw [hvlen, ← hcnt]; rfl)
  · intro i hi hm
    have := hgetD i hi
    rw [hm] at this
    simp only [Bool.false_eq_true, if_false] at this
    rw [this, List.map_const', horders2]
    congr 1
    rw [segSums_length]
    unfold nIndicesPerOrder
    simp
  · rw [horders2]
    have h1 := orderList_sorted o full
    have h2 := orderList_nodup o full
    exact (h1.and h2).imp (fun h => lt_of_le_of_ne h.1 h.2)
  · intro i hi
    rw [hrlen] at hi
    have := hgetD i hi
    rw [horders2]
    have hcl : (nIndicesPerOrder o full).length = (orderList o full).length := by
      unfold nIndicesPerOrder
      simp
    by_cases hm : mask.getD i false
    · rw [hm] at this
      simp only [if_true] at this
      rw [this, segSums_length, hcl]
    · rw [Bool.not_eq_true] at hm
      rw [hm] at this
      simp only [Bool.false_eq_true, if_false] at this
      rw [this]
      simp only [List.length_map]
      rw [segSums_length, hcl]

/-- Witness for C8 at a concrete order-2 symmetric volume: two voxels of
six coefficients, the second masked out; the channels are `[1, 5]` (orders
0 and 2) for the in-mask voxel and a zero row for the masked-out one. -/
theorem c8_compute_rish_energy_witness :
    ([0, 2] : List ℕ).Pairwise (· < ·) ∧
    (([[(1 : ℚ), 5], [0, 0]] : List (List ℚ)).getD 1 []) = List.replicate 2 0 ∧
    (([[(1 : ℚ), 5], [0, 0]] : List (List ℚ)).getD 0 []).sum =
      ((([1, 1, 1, 1, 1, 1] : List ℚ).map (fun x => x * x))).sum := by
  have h := c8_compute_rish_energy [[1, 1, 1, 1, 1, 1], [2, 0, 0, 0, 0, 0]] 6
    [true, false] false 2 [[1, 5], [0, 0]] [0, 2]
    (by decide) (by decide)
    (by intro v hv
        rcases List.mem_cons.mp hv with h1 | h1
        · rw [h1]; rfl
        · rcases List.mem_cons.mp h1 with h2 | h2
          · rw [h2]; rfl
          · simp at h2)
    rfl
    (by norm_num [compute_rish, segSums, List.replicate_succ,
      show order_from_ncoef 6 false = some 2 from by decide,
      show nIndicesPerOrder 2 false = [1, 5] from by decide,
      show ((orderIds 2 false).dedup).insertionSort (· ≤ ·) = [0, 2]
        from by decide])
  exact ⟨h.2.2.1, h.2.1 1 (by norm_num) rfl, (h.1 0 (by norm_num) rfl).1⟩

/-- The condition under which a voxel contributes nothing to the
`global_max` tracker of `_maps_from_sh_loop`: its gfa does not fall below
the threshold (which would feed the tracker with the ODF max) and it has no
valid peak slot (which would feed it with the top peak value). -/
theorem mapsLoopGo_global_max_neginf (E : ExternalFns) (B : Mat)
    (verts : List Vec3) (gfa_thr : ℚ) :
    ∀ (L : List (Voxel × List ℚ × List ℤ)) (qa : QAState) (mo : ℚ)
      (gm : Tracker),
      (mapsLoopGo E B verts gfa_thr L qa mo gm).global_max = Tracker.neginf ↔
        (gm = Tracker.neginf ∧ ∀ t ∈ L, anyNonzero t.1 = true →
          ¬ E.gfaF ((vecMat t.1 B).map (fun x => max x 0)) < gfa_thr ∧
            t.2.2.countP (fun j => decide (j > -1)) = 0) := by
  intro L
  induction L with
  | nil => intro qa mo gm; simp [mapsLoopGo]
  | cons t rest ih =>
    intro qa mo gm
    rcases t with ⟨v, pv2, pi2⟩
    simp only [mapsLoopGo]
    by_cases h1 : anyNonzero v = true
    · simp only [h1, if_true]
      by_cases h2 : E.gfaF ((vecMat v B).map (fun x => max x 0)) < gfa_thr
      · rw [if_pos h2, consVoxel_global_max, ih]
        constructor
        · rintro ⟨habs, -⟩
          exact absurd habs (by simp [tmax_eq_neginf])
        · rintro ⟨-, hall⟩
          exact absurd ((hall (v, pv2, pi2) (List.mem_cons_self _ _) h1).1 h2) (by simp)
      · rw [if_neg h2]
        by_cases h3 : pi2.countP (fun j => decide (j > -1)) ≠ 0
        · rw [if_pos h3, consVoxel_global_max, ih]
          constructor
          · rintro ⟨habs, -⟩
            exact absurd habs (by simp [tmax_eq_neginf])
          · rintro ⟨-, hall⟩
            exact absurd ((hall (v, pv2, pi2) (List.mem_cons_self _ _) h1).2) h3
        · rw [if_neg h3, consVoxel_global_max, ih]
          constructor
          · rintro ⟨hgm, hall⟩
            refine ⟨hgm, fun t ht => ?_⟩
            rcases List.mem_cons.mp ht with h | h
            · subst h
              exact fun _ => ⟨h2, by simpa using h3⟩
            · exact hall t h
          · rintro ⟨hgm, hall⟩
            exact ⟨hgm, fun t ht => hall t (List.mem_cons_of_mem _ ht)⟩
    · simp only [h1, Bool.false_eq_true, if_false]
      rw [consVoxel_global_max, ih]
      constructor
      · rintro ⟨hgm, hall⟩
        refine ⟨hgm, fun t ht => ?_⟩
        rcases List.mem_cons.mp ht with h | h
        · subst h
          intro hv
          exact absurd hv h1
        · exact hall t h
      · rintro ⟨hgm, hall⟩
        exact ⟨hgm, fun t ht => hall t (List.mem_cons_of_mem _ ht)⟩

/-- If every non-zero voxel of the chunk has a clipped ODF summing to zero,
the `max_odf` tracker never moves off its (non-negative) initial value. -/
theorem mapsLoopGo_max_odf_const (E : ExternalFns) (B : Mat)
    (verts : List Vec3) (gfa_thr : ℚ) :
    ∀ (L : List (Voxel × List ℚ × List ℤ)) (qa : QAState) (mo : ℚ)
      (gm : Tracker), 0 ≤ mo →
      (∀ t ∈ L, anyNonzero t.1 = true →
        ((vecMat t.1 B).map (fun x => max x 0)).sum = 0) →
      (mapsLoopGo E B verts gfa_thr L qa mo gm).max_odf = mo := by
  intro L
  induction L with
  | nil => intro qa mo gm _ _; simp [mapsLoopGo]
  | cons t rest ih =>
    intro qa mo gm hmo hz
    rcases t with ⟨v, pv2, pi2⟩
    simp only [mapsLoopGo]
    by_cases h1 : anyNonzero v = true
    · have hzv := hz (v, pv2, pi2) (List.mem_cons_self _ _) h1
      simp only [h1, if_true, hzv]
      have hmax : max mo (0 : ℚ) = mo := max_eq_left hmo
      by_cases h2 : E.gfaF ((vecMat v B).map (fun x => max x 0)) < gfa_thr
      · rw [if_pos h2, consVoxel_max_odf]
        simp only [hmax]
        exact ih _ _ _ hmo (fun t ht => hz t (List.mem_cons_of_mem _ ht))
      · rw [if_neg h2]
        by_cases h3 : pi2.countP (fun j => decide (j > -1)) ≠ 0
        · rw [if_pos h3, consVoxel_max_odf]
          simp only [hmax]
          exact ih _ _ _ hmo (fun t ht => hz t (List.mem_cons_of_mem _ ht))
        · rw [if_neg h3, consVoxel_max_odf]
          simp only [hmax]
          exact ih _ _ _ hmo (fun t ht => hz t (List.mem_cons_of_mem _ ht))
    · simp only [h1, Bool.false_eq_true, if_false]
      rw [consVoxel_max_odf]
      exact ih _ _ _ hmo (fun t ht => hz t (List.mem_cons_of_mem _ ht))

/-- If every non-zero voxel's clipped ODF sums to zero, no RGB vector is
ever set: the whole `rgb_map` stays at the zero vector. -/
theorem mapsLoopGo_rgb_zero (E : ExternalFns) (B : Mat) (verts : List Vec3)
    (gfa_thr : ℚ) :
    ∀ (L : List (Voxel × List ℚ × List ℤ)) (qa : QAState) (mo : ℚ)
      (gm : Tracker),
      (∀ t ∈ L, anyNonzero t.1 = true →
        ((vecMat t.1 B).map (fun x => max x 0)).sum = 0) →
      ∀ p ∈ (mapsLoopGo E B verts gfa_thr L qa mo gm).rgb, p = ((0, 0, 0) : Vec3) := by
  intro L
  induction L with
  | nil => intro qa mo gm _ p hp; simp [mapsLoopGo] at hp
  | cons t rest ih =>
    intro qa mo gm hz p hp
    rcases t with ⟨v, pv2, pi2⟩
    simp only [mapsLoopGo] at hp
    by_cases h1 : anyNonzero v = true
    · have hzv := hz (v, pv2, pi2) (List.mem_cons_self _ _) h1
      simp only [h1, if_true, hzv, lt_irrefl, if_false] at hp
      by_cases h2 : E.gfaF ((vecMat v B).map (fun x => max x 0)) < gfa_thr
      · rw [if_pos h2, consVoxel_rgb] at hp
        rcases List.mem_cons.mp hp with h | h
        · exact h
        · exact ih _ _ _ (fun t ht => hz t (List.mem_cons_of_mem _ ht)) p h
      · rw [if_neg h2] at hp
        by_cases h3 : pi2.countP (fun j => decide (j > -1)) ≠ 0
        · rw [if_pos h3, consVoxel_rgb] at hp
          rcases List.mem_cons.mp hp with h | h
          · exact h
          · exact ih _ _ _ (fun t ht => hz t (List.mem_cons_of_mem _ ht)) p h
        · rw [if_neg h3, consVoxel_rgb] at hp
          rcases List.mem_cons.mp hp with h | h
          · exact h
          · exact ih _ _ _ (fun t ht => hz t (List.mem_cons_of_mem _ ht)) p h
    · simp only [h1, Bool.false_eq_true, if_false, consVoxel_rgb] at hp
      rcases List.mem_cons.mp hp with h | h
      · exact h
      · exact ih _ _ _ (fun t ht => hz t (List.mem_cons_of_mem _ ht)) p h

theorem mem_maskScatter {α : Type} (z : α) :
    ∀ (m : List Bool) (xs : List α) (y : α),
      y ∈ maskScatter z m xs → y ∈ xs ∨ y = z := by
  intro m
  induction m with
  | nil => intro xs y hy; simp [maskScatter] at hy
  | cons b ms ih =>
    intro xs y hy
    cases b with
    | false =>
      simp only [maskScatter, List.mem_cons] at hy
      rcases hy with h | h
      · exact Or.inr h
      · exact ih xs y h
    | true =>
      cases xs with
      | nil =>
        simp only [maskScatter, List.mem_cons] at hy
        rcases hy with h | h
        · exact Or.inr h
        · exact ih [] y h
      | cons x xs2 =>
        simp only [maskScatter, List.mem_cons] at hy
        rcases hy with h | h
        · exact Or.inl (by simp [h])
        · rcases ih xs2 y h with h2 | h2
          · exact Or.inl (by simp [h2])
          · exact Or.inr h2

/-- C10 (amended): the final divisions are indeed unguarded and can leave
non-finite values, but the claimed trigger for the -inf tracker is wrong:
the global-max tracker stays at `-np.inf` iff no masked non-zero voxel is
either BELOW the gfa threshold (such voxels feed the tracker with their ODF
max — the path the claim overlooked, refuted concretely in
`c10_subthreshold_voxel_updates_global_max`) or at/above it with a valid
peak. When every masked voxel's clipped ODF sums to zero, the max-ODF
tracker — the RGB divisor — is 0, and every RGB entry of the sequential
`maps_from_sh` output is NaN (0/0). -/
theorem c10_unguarded_divisions (E : ExternalFns) (B : Mat)
    (verts : List Vec3) (gfa_thr : ℚ) (L : List (Voxel × List ℚ × List ℤ))
    (qa : QAState) (mo : ℚ) (vol : List Voxel) (C : ℕ)
    (pv : List (List ℚ)) (pinds : List (List ℤ)) (npeaks : ℕ)
    (m : List Bool) (out : MapsOut) (cpu : ℤ)
    (hsum : ∀ v ∈ maskSelect m vol,
      anyNonzero v = true → ((vecMat v B).map (fun x => max x 0)).sum = 0)
    (hres : maps_from_sh E B verts vol C pv pinds npeaks (some m) gfa_thr
      (some 1) cpu = some out) :
    ((mapsLoopGo E B verts gfa_thr L qa mo Tracker.neginf).global_max =
        Tracker.neginf ↔
      ∀ t ∈ L, anyNonzero t.1 = true →
        ¬ E.gfaF ((vecMat t.1 B).map (fun x => max x 0)) < gfa_thr ∧
          t.2.2.countP (fun j => decide (j > -1)) = 0) ∧
    (maps_from_sh_loop E B verts gfa_thr (maskSelect m vol) (maskSelect m pv)
      (maskSelect m pinds) npeaks).max_odf = 0 ∧
    out.rgb = List.replicate m.length (RVal.nan, RVal.nan, RVal.nan) := by
  have hz : ∀ t ∈ (maskSelect m vol).zip
      ((maskSelect m pv).zip (maskSelect m pinds)), anyNonzero t.1 = true →
      ((vecMat t.1 B).map (fun x => max x 0)).sum = 0 := by
    rintro ⟨v, pr⟩ ht hv
    exact hsum v (List.of_mem_zip ht).1 hv
  have hmo : (maps_from_sh_loop E B verts gfa_thr (maskSelect m vol)
      (maskSelect m pv) (maskSelect m pinds) npeaks).max_odf = 0 := by
    unfold maps_from_sh_loop
    exact mapsLoopGo_max_odf_const E B verts gfa_thr _ _ _ _ le_rfl hz
  refine ⟨?_, hmo, ?_⟩
  · rw [mapsLoopGo_global_max_neginf]
    simp
  · rcases horder : order_from_ncoef C false with - | o
    · rw [maps_from_sh, horder] at hres
      simp at hres
    · rw [maps_from_sh, horder] at hres
      have hnw : normWorkersMaps cpu (some 1) = 1 := by
        simp [normWorkersMaps]
      rw [hnw] at hres
      simp only [eq_self_iff_true, if_true, Option.some.injEq] at hres
      subst hres
      simp only [mapsFinish]
      have hzero : ∀ p ∈ maskScatter (0 : Vec3) m
          (maps_from_sh_loop E B verts gfa_thr (maskSelect m vol)
            (maskSelect m pv) (maskSelect m pinds) npeaks).rgb,
          p = ((0, 0, 0) : Vec3) := by
        intro p hp
        rcases mem_maskScatter _ _ _ _ hp with h | h
        · have h2 := mapsLoopGo_rgb_zero E B verts gfa_thr
            ((maskSelect m vol).zip ((maskSelect m pv).zip (maskSelect m pinds)))
            (QAState.mat (List.replicate (maskSelect m vol).length
              (List.replicate npeaks 0)))
            0 Tracker.neginf hz p
          unfold maps_from_sh_loop at h
          exact h2 h
        · exact h
      refine List.eq_replicate_iff.mpr ⟨by simp [length_maskScatter], ?_⟩
      intro b hb
      rcases List.mem_map.mp hb with ⟨p, hp, hb2⟩
      rw [hzero p hp] at hb2
      rw [← hb2, hmo]
      simp [divByTracker, rmul255]



/-- Witness for C10: one masked voxel `[1]` whose ODF `[-1,-1]` clips to
`[0,0]` (sum 0), with no valid peak and gfa 0 at threshold 0: the max-ODF
divisor is 0 and the returned RGB entry is NaN. -/
theorem c10_unguarded_divisions_witness :
    (maps_from_sh_loop exactFns [[-1, -1]] exVerts 0 (maskSelect [true] [[1]])
      (maskSelect [true] [[0]]) (maskSelect [true] [[-1]]) 1).max_odf = 0 ∧
    (MapsOut.rgb ⟨[0], [0], [0], [0], [(RVal.nan, RVal.nan, RVal.nan)],
      [[RVal.fin 0]]⟩) = List.replicate 1 (RVal.nan, RVal.nan, RVal.nan) := by
  have h := c10_unguarded_divisions exactFns [[-1, -1]] exVerts 0
    [([1], [0], [-1])] (QAState.mat [[0]]) 0 [[1]] 1 [[0]] [[-1]] 1 [true]
    ⟨[0], [0], [0], [0], [(RVal.nan, RVal.nan, RVal.nan)], [[RVal.fin 0]]⟩ 4
    (by intro v hv
        simp only [maskSelect, List.zip_cons_cons, List.zip_nil_right,
          List.filter, List.map_cons, List.map_nil] at hv
        norm_num at hv
        subst hv
        norm_num [vecMat, sumVecs, max_def])
    (by norm_num [maps_from_sh, maps_from_sh_loop, mapsLoopGo, consVoxel,
          mapsFinish, mapsReduce, maskSelect, maskScatter, normWorkersMaps,
          show order_from_ncoef 1 false = some 0 from by decide,
          exVerts, vecMat, sumVecs, dot, anyNonzero, npMax, npMin, rgbVec,
          scaleVec, qaRows, tmax, divByTracker, rmul255, exactFns, gfaRat,
          gfaSq, ratSqrt, norm3Rat, List.countP_cons, max_def,
          show Int.toNat 0 = 0 from rfl, natSqrtE_0, natSqrtE_1])
  exact ⟨h.2.1, h.2.2⟩


/-- Division of a finite zero by any tracker value other than an exact zero
gives a finite zero back. -/
theorem divByTracker_zero (t : Tracker) (h : t ≠ Tracker.val 0) :
    divByTracker 0 t = RVal.fin 0 := by
  cases t with
  | neginf => rfl
  | val d =>
    have hd : d ≠ 0 := fun h0 => h (by rw [h0])
    simp [divByTracker, hd]

/-- C4 (amended): the default mask marks exactly the voxels whose
coefficient SUM is non-zero (not "any non-zero coefficient" — refuted in
`c4_default_mask_counterexample`), and a voxel outside this mask is
zero-filled in every output of `peaks_from_sh` (any worker count; the index
array is filled with 0), of the sequential `maps_from_sh` (provided the two
final divisors are non-zero — they are unguarded, see C10), and of
`convert_sh_basis` when an actual conversion occurs (the identical-basis
short-circuit returns the input unchanged). -/
theorem c4_default_mask_and_zero_fill
    (pd : List ℚ → PeakDirections) (E : ExternalFns)
    (Bp Bm B_in invB_out : Mat) (verts : List Vec3) (vol : List Voxel)
    (C npeaks : ℕ) (pv : List (List ℚ)) (pinds : List (List ℤ))
    (absThr gfa_thr : ℚ) (normalize full : Bool) (ib ob : Basis)
    (il ol : Bool) (nbr nbr2 : Option ℤ) (cpu : ℤ) (i : ℕ)
    (ds : List (List Vec3)) (vs : List (List ℚ)) (pidx : List (List ℤ))
    (out : MapsOut) (sh2 : List Voxel)
    (hi : i < vol.length)
    (hz : (vol.getD i []).sum = 0)
    (hpeaks : peaks_from_sh pd Bp vol C none absThr normalize npeaks full
      nbr cpu = some (ds, vs, pidx))
    (hmodf : (maps_from_sh_loop E Bm verts gfa_thr
      (maskSelect (defaultMask vol) vol) (maskSelect (defaultMask vol) pv)
      (maskSelect (defaultMask vol) pinds) npeaks).max_odf ≠ 0)
    (hgm : (maps_from_sh_loop E Bm verts gfa_thr
      (maskSelect (defaultMask vol) vol) (maskSelect (defaultMask vol) pv)
      (maskSelect (defaultMask vol) pinds) npeaks).global_max ≠ Tracker.val 0)
    (hmaps : maps_from_sh E Bm verts vol C pv pinds npeaks none gfa_thr
      (some 1) cpu = some out)
    (hbasis : ¬(ib = ob ∧ il = ol))
    (hconv : convert_sh_basis B_in invB_out vol C none ib ob il ol nbr2 cpu =
      some sh2) :
    (∀ j, j < vol.length →
      ((defaultMask vol).getD j false = true ↔ (vol.getD j []).sum ≠ 0)) ∧
    ds.getD i [] = List.replicate npeaks ((0, 0, 0) : Vec3) ∧
    vs.getD i [] = List.replicate npeaks (0 : ℚ) ∧
    pidx.getD i [] = List.replicate npeaks (0 : ℤ) ∧
    out.nufo.getD i 1 = 0 ∧ out.afd_max.getD i 1 = 0 ∧
    out.afd_sum.getD i 1 = 0 ∧ out.gfa.getD i 1 = 0 ∧
    out.rgb.getD i (RVal.nan, RVal.nan, RVal.nan) =
      (RVal.fin 0, RVal.fin 0, RVal.fin 0) ∧
    out.qa.getD i [] = List.replicate npeaks (RVal.fin 0) ∧
    sh2.getD i [] = List.replicate C 0 := by
  have hmaskD : ∀ j, j < vol.length →
      (defaultMask vol).getD j false = decide ((vol.getD j []).sum ≠ 0) := by
    intro j hj
    exact getD_map' _ vol j [] false hj
  have hmlen : (defaultMask vol).length = vol.length := List.length_map _ _
  have hmi : (defaultMask vol).getD i false = false := by
    rw [hmaskD i hi, hz]
    simp
  have hilt : i < (defaultMask vol).length := by omega
  have hpk : ds.getD i [] = List.replicate npeaks ((0, 0, 0) : Vec3) ∧
      vs.getD i [] = List.replicate npeaks (0 : ℚ) ∧
      pidx.getD i [] = List.replicate npeaks (0 : ℤ) := by
    rcases horderP : order_from_ncoef C full with - | oP
    · simp only [peaks_from_sh, horderP] at hpeaks
      exact Option.noConfusion hpeaks
    · simp only [peaks_from_sh, horderP] at hpeaks
      by_cases h1 : normWorkersPeaks cpu nbr = 1
      · rw [if_pos h1] at hpeaks
        simp only [Option.some.injEq, Prod.mk.injEq] at hpeaks
        obtain ⟨hd, hv2, hp2⟩ := hpeaks
        refine ⟨?_, ?_, ?_⟩
        · rw [← hd]; exact maskScatter_getD_false _ _ _ _ _ hilt hmi
        · rw [← hv2]; exact maskScatter_getD_false _ _ _ _ _ hilt hmi
        · rw [← hp2]; exact maskScatter_getD_false _ _ _ _ _ hilt hmi
      · rw [if_neg h1] at hpeaks
        by_cases h2 : normWorkersPeaks cpu nbr ≤ 0
        · rw [if_pos h2] at hpeaks
          simp at hpeaks
        · rw [if_neg h2] at hpeaks
          simp only [Option.some.injEq, Prod.mk.injEq] at hpeaks
          obtain ⟨hd, hv2, hp2⟩ := hpeaks
          refine ⟨?_, ?_, ?_⟩
          · rw [← hd]; exact maskScatter_getD_false _ _ _ _ _ hilt hmi
          · rw [← hv2]; exact maskScatter_getD_false _ _ _ _ _ hilt hmi
          · rw [← hp2]; exact maskScatter_getD_false _ _ _ _ _ hilt hmi
  have hmp : out.nufo.getD i 1 = 0 ∧ out.afd_max.getD i 1 = 0 ∧
      out.afd_sum.getD i 1 = 0 ∧ out.gfa.getD i 1 = 0 ∧
      out.rgb.getD i (RVal.nan, RVal.nan, RVal.nan) =
        (RVal.fin 0, RVal.fin 0, RVal.fin 0) ∧
      out.qa.getD i [] = List.replicate npeaks (RVal.fin 0) := by
    rcases horderM : order_from_ncoef C false with - | oM
    · simp only [maps_from_sh, horderM] at hmaps
      exact Option.noConfusion hmaps
    · simp only [maps_from_sh, horderM] at hmaps
      have hnw : normWorkersMaps cpu (some 1) = 1 := by
        simp [normWorkersMaps]
      rw [hnw] at hmaps
      simp only [eq_self_iff_true, if_true, Option.some.injEq] at hmaps
      subst hmaps
      simp only [mapsFinish]
      have hrgbL : i < (maskScatter ((0, 0, 0) : Vec3) (defaultMask vol)
          (maps_from_sh_loop E Bm verts gfa_thr
            (maskSelect (defaultMask vol) vol)
            (maskSelect (defaultMask vol) pv)
            (maskSelect (defaultMask vol) pinds) npeaks).rgb).length := by
        rw [length_maskScatter]; omega
      have hqaL : i < (maskScatter (List.replicate npeaks (0 : ℚ))
          (defaultMask vol)
          (qaRows (maskSelect (defaultMask vol) vol).length
            (maps_from_sh_loop E Bm verts gfa_thr
              (maskSelect (defaultMask vol) vol)
              (maskSelect (defaultMask vol) pv)
              (maskSelect (defaultMask vol) pinds) npeaks).qa)).length := by
        rw [length_maskScatter]; omega
      refine ⟨maskScatter_getD_false _ _ _ _ _ hilt hmi,
        maskScatter_getD_false _ _ _ _ _ hilt hmi,
        maskScatter_getD_false _ _ _ _ _ hilt hmi,
        maskScatter_getD_false _ _ _ _ _ hilt hmi, ?_, ?_⟩
      · rw [getD_map' _ _ i ((0, 0, 0) : Vec3) _ hrgbL]
        rw [maskScatter_getD_false _ _ _ _ _ hilt hmi]
        have hdz := divByTracker_zero
          (Tracker.val (maps_from_sh_loop E Bm verts gfa_thr
            (maskSelect (defaultMask vol) vol)
            (maskSelect (defaultMask vol) pv)
            (maskSelect (defaultMask vol) pinds) npeaks).max_odf)
          (by intro hc; exact hmodf (Tracker.val.inj hc))
        rw [hdz]
        simp [rmul255]
      · rw [getD_map' _ _ i (List.replicate npeaks (0 : ℚ)) _ hqaL]
        rw [maskScatter_getD_false _ _ _ _ _ hilt hmi]
        rw [List.map_replicate, divByTracker_zero _ hgm]
  have hcv : sh2.getD i [] = List.replicate C 0 := by
    simp only [convert_sh_basis] at hconv
    rw [if_neg hbasis] at hconv
    rcases horderC : order_from_ncoef C false with - | oC
    · simp only [horderC] at hconv
      exact Option.noConfusion hconv
    · simp only [horderC] at hconv
      by_cases h1 : normWorkersMaps cpu nbr2 = 1
      · rw [if_pos h1, Option.some.injEq] at hconv
        rw [← hconv]
        exact maskScatter_getD_false _ _ _ _ _ hilt hmi
      · rw [if_neg h1] at hconv
        by_cases h2 : normWorkersMaps cpu nbr2 ≤ 0
        · rw [if_pos h2] at hconv
          simp at hconv
        · rw [if_neg h2, Option.some.injEq] at hconv
          rw [← hconv]
          exact maskScatter_getD_false _ _ _ _ _ hilt hmi
  exact ⟨fun j hj => by rw [hmaskD j hj]; simp, hpk.1, hpk.2.1, hpk.2.2,
    hmp.1, hmp.2.1, hmp.2.2.1, hmp.2.2.2.1, hmp.2.2.2.2.1, hmp.2.2.2.2.2, hcv⟩


/-- Witness for C4 on the two-voxel volume `[[1], [0]]`: voxel 1 (zero
coefficient sum) is outside the default mask and zero-filled in the peak,
map and conversion outputs. -/
theorem c4_default_mask_and_zero_fill_witness :
    ([[((1 : ℚ), (0 : ℚ), (0 : ℚ))], [((0 : ℚ), (0 : ℚ), (0 : ℚ))]] :
      List (List Vec3)).getD 1 [] = List.replicate 1 ((0, 0, 0) : Vec3) ∧
    ([[RVal.fin (2 / 3)], [RVal.fin 0]] : List (List RVal)).getD 1 [] =
      List.replicate 1 (RVal.fin 0) ∧
    ([[(1 : ℚ)], [0]] : List Voxel).getD 1 [] = List.replicate 1 (0 : ℚ) := by
  have h := c4_default_mask_and_zero_fill pdOne exactFns exB exB
    [[1, 1]] [[1], [0]] exVerts [[1], [0]] 1 1 [[3], [0]] [[0], [-1]]
    0 0 false false Basis.descoteaux07 Basis.tournier07 true false
    (some 1) (some 1) 4 1
    [[((1 : ℚ), (0 : ℚ), (0 : ℚ))], [((0 : ℚ), (0 : ℚ), (0 : ℚ))]]
    [[1], [0]] [[0], [0]]
    ⟨[1, 0], [3, 0], [1, 0], [0, 0],
     [(RVal.fin 255, RVal.fin 0, RVal.fin 0),
      (RVal.fin 0, RVal.fin 0, RVal.fin 0)],
     [[RVal.fin (2 / 3)], [RVal.fin 0]]⟩
    [[1], [0]]
    (by norm_num)
    (by norm_num)
    (by norm_num [peaks_from_sh, peaks_from_sh_loop, peaksVoxel, defaultMask,
      maskSelect, maskScatter, normWorkersPeaks, anyNonzero, vecMat, sumVecs,
      sliceAssign, exB, pdOne,
      show order_from_ncoef 1 false = some 0 from by decide])
    (by norm_num [maps_from_sh_loop, mapsLoopGo, consVoxel, defaultMask,
      maskSelect, anyNonzero, vecMat, sumVecs, dot, npMax, npMin, rgbVec,
      scaleVec, tmax, exB, exVerts, exactFns, gfaRat, gfaSq, ratSqrt,
      norm3Rat, List.countP_cons, max_def,
      show Int.toNat 0 = 0 from rfl, show Int.toNat 4 = 4 from rfl,
      natSqrtE_0, natSqrtE_1, natSqrtE_4])
    (by norm_num [maps_from_sh_loop, mapsLoopGo, consVoxel, defaultMask,
      maskSelect, anyNonzero, vecMat, sumVecs, dot, npMax, npMin, rgbVec,
      scaleVec, tmax, exB, exVerts, exactFns, gfaRat, gfaSq, ratSqrt,
      norm3Rat, List.countP_cons, max_def,
      show Int.toNat 0 = 0 from rfl, show Int.toNat 4 = 4 from rfl,
      natSqrtE_0, natSqrtE_1, natSqrtE_4])
    (by norm_num [maps_from_sh, maps_from_sh_loop, mapsLoopGo, consVoxel,
      mapsFinish, maskSelect, maskScatter, defaultMask, normWorkersMaps,
      qaRows, tmax, divByTracker, rmul255, anyNonzero, vecMat, sumVecs, dot,
      npMax, npMin, rgbVec, scaleVec, exB, exVerts, exactFns, gfaRat, gfaSq,
      ratSqrt, norm3Rat, List.countP_cons, max_def,
      show order_from_ncoef 1 false = some 0 from by decide,
      show Int.toNat 0 = 0 from rfl, show Int.toNat 4 = 4 from rfl,
      natSqrtE_0, natSqrtE_1, natSqrtE_4])
    (by decide)
    (by norm_num [convert_sh_basis, convert_sh_basis_loop, defaultMask,
      maskSelect, maskScatter, normWorkersMaps, anyNonzero, vecMat, sumVecs,
      show order_from_ncoef 1 false = some 0 from by decide])
  exact ⟨h.2.1, h.2.2.2.2.2.2.2.2.2.1, h.2.2.2.2.2.2.2.2.2.2⟩


theorem getD_replicate {α : Type} (a d : α) (n i : ℕ) (h : i < n) :
    (List.replicate n a).getD i d = a := by
  induction n generalizing i with
  | zero => omega
  | succ k ih =>
    cases i with
    | zero => simp [List.replicate_succ]
    | succ j =>
      simp only [List.replicate_succ, List.getD_cons_succ]
      exact ih j (by omega)

theorem pairwise_ge_replicate (n : ℕ) (a : ℚ) :
    (List.replicate n a).Pairwise (· ≥ ·) := by
  induction n with
  | zero => simp
  | succ k ih =>
    rw [List.replicate_succ]
    exact List.Pairwise.cons
      (fun b hb => by rw [List.eq_of_mem_replicate hb]) ih

theorem scaleVec_zero (w : ℚ) : scaleVec w ((0, 0, 0) : Vec3) = (0, 0, 0) := by
  simp [scaleVec]

theorem getD_zip {α β : Type} (a : List α) (b : List β) (i : ℕ) (da : α)
    (db : β) (hia : i < a.length) (hib : i < b.length) :
    (a.zip b).getD i (da, db) = (a.getD i da, b.getD i db) := by
  induction a generalizing b i with
  | nil => simp at hia
  | cons x xs ih =>
    cases b with
    | nil => simp at hib
    | cons y ys =>
      cases i with
      | zero => simp
      | succ n =>
        simp only [List.zip_cons_cons, List.getD_cons_succ]
        exact ih ys n (by simpa using hia) (by simpa using hib)

theorem maskSelect_zip {α β : Type} :
    ∀ (m : List Bool) (a : List α) (b : List β),
      (maskSelect m a).zip (maskSelect m b) = maskSelect m (a.zip b) := by
  intro m
  induction m with
  | nil => intro a b; simp [maskSelect]
  | cons c ms ih =>
    intro a b
    cases a with
    | nil => cases b <;> simp [maskSelect]
    | cons x xs =>
      cases b with
      | nil => simp [maskSelect]
      | cons y ys =>
        rw [List.zip_cons_cons, maskSelect_cons, maskSelect_cons,
          maskSelect_cons]
        cases c with
        | false => simpa using ih xs ys
        | true => simpa using ih xs ys

theorem mapsLoopGo_scalars_eq_map (E : ExternalFns) (B : Mat)
    (verts : List Vec3) (gfa_thr : ℚ) :
    ∀ (L : List (Voxel × List ℚ × List ℤ)) (qa : QAState) (mo : ℚ)
      (gm : Tracker),
      (mapsLoopGo E B verts gfa_thr L qa mo gm).nufo =
        L.map (mapsNufoVoxel E B gfa_thr) ∧
      (mapsLoopGo E B verts gfa_thr L qa mo gm).afd_max =
        L.map (mapsAfdMaxVoxel E B gfa_thr) ∧
      (mapsLoopGo E B verts gfa_thr L qa mo gm).afd_sum =
        L.map (mapsAfdSumVoxel E B gfa_thr) := by
  intro L
  induction L with
  | nil => intro qa mo gm; simp [mapsLoopGo]
  | cons t rest ih =>
    intro qa mo gm
    rcases t with ⟨v, pv2, pi2⟩
    simp only [mapsLoopGo, List.map_cons]
    by_cases h1 : anyNonzero v = true
    · simp only [h1, if_true]
      by_cases h2 : E.gfaF ((vecMat v B).map (fun x => max x 0)) < gfa_thr
      · rw [if_pos h2, consVoxel]
        simp only [mapsNufoVoxel, mapsAfdMaxVoxel, mapsAfdSumVoxel, h1,
          if_true, if_pos h2]
        exact ⟨by rw [(ih _ _ _).1], by rw [(ih _ _ _).2.1],
          by rw [(ih _ _ _).2.2]⟩
      · rw [if_neg h2]
        by_cases h3 : pi2.countP (fun j => decide (j > -1)) ≠ 0
        · rw [if_pos h3, consVoxel]
          simp only [mapsNufoVoxel, mapsAfdMaxVoxel, mapsAfdSumVoxel, h1,
            if_true, if_neg h2, if_pos h3]
          exact ⟨by rw [(ih _ _ _).1], by rw [(ih _ _ _).2.1],
            by rw [(ih _ _ _).2.2]⟩
        · rw [if_neg h3, consVoxel]
          simp only [mapsNufoVoxel, mapsAfdMaxVoxel, mapsAfdSumVoxel, h1,
            if_true, if_neg h2, if_neg h3]
          exact ⟨by rw [(ih _ _ _).1], by rw [(ih _ _ _).2.1],
            by rw [(ih _ _ _).2.2]⟩
    · simp only [h1, Bool.false_eq_true, if_false, consVoxel]
      simp only [mapsNufoVoxel, mapsAfdMaxVoxel, mapsAfdSumVoxel, h1,
        Bool.false_eq_true, if_false]
      exact ⟨by rw [(ih _ _ _).1], by rw [(ih _ _ _).2.1],
        by rw [(ih _ _ _).2.2]⟩


theorem pairwise_ge_append_replicate (xs : List ℚ) (k : ℕ)
    (hsort : xs.Pairwise (· ≥ ·)) (hnn : ∀ x ∈ xs, 0 ≤ x) :
    (xs ++ List.replicate k (0 : ℚ)).Pairwise (· ≥ ·) := by
  rw [List.pairwise_append]
  exact ⟨hsort, pairwise_ge_replicate k 0,
    fun a ha b hb => by rw [List.eq_of_mem_replicate hb]; exact hnn a ha⟩

theorem getD_append_left {α : Type} (l1 l2 : List α) (j : ℕ) (d : α)
    (h : j < l1.length) : (l1 ++ l2).getD j d = l1.getD j d := by
  induction l1 generalizing j with
  | nil => simp at h
  | cons x xs ih =>
    cases j with
    | zero => simp
    | succ m =>
      simp only [List.cons_append, List.getD_cons_succ]
      exact ih m (by simpa using h)

theorem getD_append_right' {α : Type} (l1 l2 : List α) (j : ℕ) (d : α)
    (h : l1.length ≤ j) : (l1 ++ l2).getD j d = l2.getD (j - l1.length) d := by
  induction l1 generalizing j with
  | nil => simp
  | cons x xs ih =>
    cases j with
    | zero => simp at h
    | succ m =>
      simp only [List.cons_append, List.getD_cons_succ, List.length_cons]
      rw [ih m (by simpa using h)]
      congr 1
      omega

theorem getD_mem_of_lt {α : Type} (l : List α) (j : ℕ) (d : α)
    (h : j < l.length) : l.getD j d ∈ l := by
  rw [List.getD_eq_getElem l d h]
  apply List.getElem_mem


theorem headI_mem_of_ne_nil (l : List ℚ) (h : l ≠ []) : l.headI ∈ l := by
  cases l with
  | nil => exact absurd rfl h
  | cons a t => simp

/-- Row-level invariants of the per-voxel peak extraction: values
non-increasing, unused slots (index -1) have zero value and direction, and
an all-zero voxel keeps the initial zero and -1 rows. -/
theorem peaksVoxel_rows (pd : List ℚ → PeakDirections) (B : Mat)
    (absThr : ℚ) (npeaks : ℕ) (normalize : Bool) (v : Voxel) (hpd : PDwf pd) :
    ((peaksVoxel pd B absThr npeaks normalize v).2.1.Pairwise (· ≥ ·)) ∧
    (∀ j, j < npeaks →
      (peaksVoxel pd B absThr npeaks normalize v).2.2.getD j 0 = -1 →
      (peaksVoxel pd B absThr npeaks normalize v).2.1.getD j 1 = 0 ∧
      (peaksVoxel pd B absThr npeaks normalize v).1.getD j ((1, 1, 1) : Vec3) =
        ((0, 0, 0) : Vec3)) ∧
    (anyNonzero v = false →
      peaksVoxel pd B absThr npeaks normalize v =
        (List.replicate npeaks ((0, 0, 0) : Vec3),
         List.replicate npeaks (0 : ℚ),
         List.replicate npeaks (-1 : ℤ))) := by
  by_cases hv : anyNonzero v = true
  · obtain ⟨hsort, hpos, hdl, hil, hinn⟩ :=
      hpd ((vecMat v B).map (fun x => if x < absThr then 0 else x))
    simp only [peaksVoxel]
    rw [if_pos hv]
    set r := pd ((vecMat v B).map (fun x => if x < absThr then 0 else x))
      with hrdef
    by_cases hlen0 : r.values.length ≠ 0
    · rw [if_pos hlen0]
      set n := min npeaks r.values.length with hn
      have hnp : n ≤ npeaks := Nat.min_le_left _ _
      have hnv : n ≤ r.values.length := Nat.min_le_right _ _
      have hvals1 : sliceAssign (List.replicate npeaks (0 : ℚ)) r.values n =
          r.values.take n ++ List.replicate (npeaks - n) 0 := by
        unfold sliceAssign
        rw [List.drop_replicate]
      have hdirs1 : sliceAssign (List.replicate npeaks ((0, 0, 0) : Vec3))
          r.dirs n =
          r.dirs.take n ++ List.replicate (npeaks - n) ((0, 0, 0) : Vec3) := by
        unfold sliceAssign
        rw [List.drop_replicate]
      have hinds1 : sliceAssign (List.replicate npeaks (-1 : ℤ)) r.indices n =
          r.indices.take n ++ List.replicate (npeaks - n) (-1 : ℤ) := by
        unfold sliceAssign
        rw [List.drop_replicate]
      have hlt : (r.values.take n).length = n := by
        rw [List.length_take]
        omega
      have hldir : (r.dirs.take n).length = n := by
        rw [List.length_take, hdl]
        omega
      have hlind : (r.indices.take n).length = n := by
        rw [List.length_take, hil]
        omega
      have htake_pos : ∀ x ∈ r.values.take n, 0 < x :=
        fun x hx => hpos x (List.take_subset _ _ hx)
      have hunused : ∀ j, j < npeaks →
          (r.indices.take n ++ List.replicate (npeaks - n) (-1 : ℤ)).getD j 0 =
            -1 → n ≤ j := by
        intro j hj hjv
        by_contra hcon
        push_neg at hcon
        rw [getD_append_left _ _ _ _ (by omega)] at hjv
        have hmem : (r.indices.take n).getD j 0 ∈ r.indices.take n :=
          getD_mem_of_lt _ _ _ (by omega)
        have := hinn _ (List.take_subset _ _ hmem)
        omega
      cases hnorm : normalize with
      | false =>
        simp only [Bool.false_eq_true, if_false, hvals1, hdirs1, hinds1]
        refine ⟨?_, ?_, fun hno => absurd hv (by rw [hno]; exact
          Bool.false_ne_true)⟩
        · exact pairwise_ge_append_replicate _ _
            (hsort.sublist (List.take_sublist _ _))
            (fun x hx => le_of_lt (htake_pos x hx))
        · intro j hj hjv
          have hnj := hunused j hj hjv
          constructor
          · rw [getD_append_right' _ _ _ _ (by omega), hlt]
            exact getD_replicate _ _ _ _ (by omega)
          · rw [getD_append_right' _ _ _ _ (by omega), hldir]
            exact getD_replicate _ _ _ _ (by omega)
      | true =>
        have hne : r.values ≠ [] := by
          intro hnil
          rw [hnil] at hlen0
          exact hlen0 rfl
        have h0 : 0 < r.values.headI := hpos _ (headI_mem_of_ne_nil _ hne)
        have hv1take : (r.values.take n ++
            List.replicate (npeaks - n) (0 : ℚ)).take n = r.values.take n := by
          have htk := List.take_left (r.values.take n)
            (List.replicate (npeaks - n) (0 : ℚ))
          rw [hlt] at htk
          exact htk
        have hv1drop : (r.values.take n ++
            List.replicate (npeaks - n) (0 : ℚ)).drop n =
            List.replicate (npeaks - n) (0 : ℚ) := by
          have hdk := List.drop_left (r.values.take n)
            (List.replicate (npeaks - n) (0 : ℚ))
          rw [hlt] at hdk
          exact hdk
        simp only [if_true, hvals1, hdirs1, hinds1]
        have hvals2 : sliceAssign
            (r.values.take n ++ List.replicate (npeaks - n) (0 : ℚ))
            (((r.values.take n ++ List.replicate (npeaks - n) (0 : ℚ)).take
              n).map (fun x => x / r.values.headI)) n =
            (r.values.take n).map (fun x => x / r.values.headI) ++
              List.replicate (npeaks - n) (0 : ℚ) := by
          unfold sliceAssign
          rw [hv1take, hv1drop]
          congr 1
          exact List.take_of_length_le (by rw [List.length_map, hlt])
        rw [hvals2]
        have hlmap : ((r.values.take n).map
            (fun x => x / r.values.headI)).length = n := by
          rw [List.length_map, hlt]
        have hldirs1 : (r.dirs.take n ++
            List.replicate (npeaks - n) ((0, 0, 0) : Vec3)).length = npeaks := by
          rw [List.length_append, hldir, List.length_replicate]
          omega
        have hlvals2 : ((r.values.take n).map (fun x => x / r.values.headI) ++
            List.replicate (npeaks - n) (0 : ℚ)).length = npeaks := by
          rw [List.length_append, hlmap, List.length_replicate]
          omega
        refine ⟨?_, ?_, fun hno => absurd hv (by rw [hno]; exact
          Bool.false_ne_true)⟩
        · apply pairwise_ge_append_replicate
          · exact List.pairwise_map.mpr
              (((hsort.sublist (List.take_sublist _ _))).imp
                (fun hab => by
                  exact (div_le_div_iff_of_pos_right h0).mpr hab))
          · intro x hx
            rcases List.mem_map.mp hx with ⟨a, ha, hax⟩
            rw [← hax]
            exact div_nonneg (le_of_lt (htake_pos a ha)) (le_of_lt h0)
        · intro j hj hjv
          have hnj := hunused j hj hjv
          constructor
          · rw [getD_append_right' _ _ _ _ (by rw [hlmap]; omega), hlmap]
            exact getD_replicate _ _ _ _ (by omega)
          · rw [getD_zipWith _ _ _ j ((0, 0, 0) : Vec3) (1 : ℚ) _
              (by rw [hldirs1]; omega) (by rw [hlvals2]; omega)]
            rw [getD_append_right' (r.dirs.take n)
              (List.replicate (npeaks - n) ((0, 0, 0) : Vec3)) j
              ((0, 0, 0) : Vec3) (by rw [hldir]; omega)]
            rw [hldir, getD_replicate _ _ _ _ (by omega)]
            exact scaleVec_zero _
    · rw [if_neg hlen0]
      refine ⟨pairwise_ge_replicate _ _, ?_, fun _ => rfl⟩
      intro j hj _
      exact ⟨getD_replicate _ _ _ _ hj, getD_replicate _ _ _ _ hj⟩
  · simp only [peaksVoxel]
    rw [if_neg hv]
    refine ⟨pairwise_ge_replicate _ _, ?_, fun _ => rfl⟩
    intro j hj _
    exact ⟨getD_replicate _ _ _ _ hj, getD_replicate _ _ _ _ hj⟩


/-- C7 (amended): inside the mask, peak values are non-increasing across
the npeaks slots and every unused slot (index -1) has zero value and zero
direction; an all-zero voxel INSIDE the mask gets all slots zero with index
-1 and contributes nothing to the NUFO/AFD maps. (Under the default mask an
all-zero voxel is excluded and its index slots read 0 — see
`c7_zero_voxel_default_mask_index_zero`.) The external `peak_directions` is
assumed to honour its documented contract `PDwf`. -/
theorem c7_peaks_invariants
    (pd : List ℚ → PeakDirections) (E : ExternalFns) (Bp Bm : Mat)
    (verts : List Vec3) (vol : List Voxel) (C npeaks : ℕ) (mask : List Bool)
    (pv : List (List ℚ)) (pinds : List (List ℤ))
    (absThr gfa_thr : ℚ) (normalize full : Bool) (nbr : Option ℤ) (cpu : ℤ)
    (ds : List (List Vec3)) (vs : List (List ℚ)) (pidx : List (List ℤ))
    (out : MapsOut) (i : ℕ)
    (hpd : PDwf pd)
    (hmlen : mask.length = vol.length)
    (hpvlen : pv.length = vol.length)
    (hpilen : pinds.length = vol.length)
    (hi : i < vol.length)
    (hmi : mask.getD i false = true)
    (hres : peaks_from_sh pd Bp vol C (some mask) absThr normalize npeaks
      full nbr cpu = some (ds, vs, pidx))
    (hmaps : maps_from_sh E Bm verts vol C pv pinds npeaks (some mask)
      gfa_thr (some 1) cpu = some out) :
    (vs.getD i []).Pairwise (· ≥ ·) ∧
    (∀ j, j < npeaks → (pidx.getD i []).getD j 0 = -1 →
      (vs.getD i []).getD j 1 = 0 ∧
      (ds.getD i []).getD j ((1, 1, 1) : Vec3) = ((0, 0, 0) : Vec3)) ∧
    (anyNonzero (vol.getD i []) = false →
      ds.getD i [] = List.replicate npeaks ((0, 0, 0) : Vec3) ∧
      vs.getD i [] = List.replicate npeaks (0 : ℚ) ∧
      pidx.getD i [] = List.replicate npeaks (-1 : ℤ) ∧
      out.nufo.getD i 1 = 0 ∧ out.afd_max.getD i 1 = 0 ∧
      out.afd_sum.getD i 1 = 0) := by
  have hilt : i < mask.length := by omega
  -- the three peak output rows are the per-voxel rows of `peaksVoxel`
  have hrows : ds.getD i [] =
      (peaksVoxel pd Bp absThr npeaks normalize (vol.getD i [])).1 ∧
      vs.getD i [] =
        (peaksVoxel pd Bp absThr npeaks normalize (vol.getD i [])).2.1 ∧
      pidx.getD i [] =
        (peaksVoxel pd Bp absThr npeaks normalize (vol.getD i [])).2.2 := by
    rcases horderP : order_from_ncoef C full with - | oP
    · simp only [peaks_from_sh, horderP] at hres
      exact Option.noConfusion hres
    · simp only [peaks_from_sh, horderP, peaks_from_sh_loop] at hres
      by_cases h1 : normWorkersPeaks cpu nbr = 1
      · rw [if_pos h1] at hres
        simp only [Option.some.injEq, Prod.mk.injEq] at hres
        obtain ⟨hd, hv2, hp2⟩ := hres
        refine ⟨?_, ?_, ?_⟩
        · rw [← hd]
          exact maskScatter_select_map _ _ _ [] mask vol i hmlen hilt hmi
        · rw [← hv2]
          exact maskScatter_select_map _ _ _ [] mask vol i hmlen hilt hmi
        · rw [← hp2]
          exact maskScatter_select_map _ _ _ [] mask vol i hmlen hilt hmi
      · rw [if_neg h1] at hres
        by_cases h2 : normWorkersPeaks cpu nbr ≤ 0
        · rw [if_pos h2] at hres
          exact Option.noConfusion hres
        · rw [if_neg h2] at hres
          simp only [Option.some.injEq, Prod.mk.injEq] at hres
          obtain ⟨hd, hv2, hp2⟩ := hres
          have hn1 : 1 ≤ (normWorkersPeaks cpu nbr).toNat := by omega
          refine ⟨?_, ?_, ?_⟩
          · rw [← hd, List.map_map,
              show (fun (r : List (List Vec3) × List (List ℚ) ×
                  List (List ℤ)) => r.1) ∘
                peaks_from_sh_loop pd Bp absThr npeaks normalize =
                List.map (fun v =>
                  (peaksVoxel pd Bp absThr npeaks normalize v).1) from rfl,
              flatten_map_arraySplit _ _ _ hn1]
            exact maskScatter_select_map _ _ _ [] mask vol i hmlen hilt hmi
          · rw [← hv2, List.map_map,
              show (fun (r : List (List Vec3) × List (List ℚ) ×
                  List (List ℤ)) => r.2.1) ∘
                peaks_from_sh_loop pd Bp absThr npeaks normalize =
                List.map (fun v =>
                  (peaksVoxel pd Bp absThr npeaks normalize v).2.1) from rfl,
              flatten_map_arraySplit _ _ _ hn1]
            exact maskScatter_select_map _ _ _ [] mask vol i hmlen hilt hmi
          · rw [← hp2, List.map_map,
              show (fun (r : List (List Vec3) × List (List ℚ) ×
                  List (List ℤ)) => r.2.2) ∘
                peaks_from_sh_loop pd Bp absThr npeaks normalize =
                List.map (fun v =>
                  (peaksVoxel pd Bp absThr npeaks normalize v).2.2) from rfl,
              flatten_map_arraySplit _ _ _ hn1]
            exact maskScatter_select_map _ _ _ [] mask vol i hmlen hilt hmi
  obtain ⟨hdrow, hvrow, hprow⟩ := hrows
  obtain ⟨hsorted, hunused, hzero⟩ :=
    peaksVoxel_rows pd Bp absThr npeaks normalize (vol.getD i []) hpd
  refine ⟨by rw [hvrow]; exact hsorted, ?_, ?_⟩
  · intro j hj hjm
    rw [hprow] at hjm
    obtain ⟨hv0, hd0⟩ := hunused j hj hjm
    exact ⟨by rw [hvrow]; exact hv0, by rw [hdrow]; exact hd0⟩
  · intro hnz
    have hz := hzero hnz
    have htriple : ∀ {α β γ : Type} (a : α) (b : β) (c : γ) (p : α × β × γ),
        p = (a, b, c) → p.1 = a ∧ p.2.1 = b ∧ p.2.2 = c := by
      rintro α β γ a b c p rfl
      exact ⟨rfl, rfl, rfl⟩
    obtain ⟨hz1, hz2, hz3⟩ := htriple _ _ _ _ hz
    -- maps: NUFO / AFD-max / AFD-sum contributions are per-voxel functions
    have hmapsrow : out.nufo.getD i 1 = 0 ∧ out.afd_max.getD i 1 = 0 ∧
        out.afd_sum.getD i 1 = 0 := by
      rcases horderM : order_from_ncoef C false with - | oM
      · simp only [maps_from_sh, horderM] at hmaps
        exact Option.noConfusion hmaps
      · simp only [maps_from_sh, horderM] at hmaps
        have hnw : normWorkersMaps cpu (some 1) = 1 := by
          simp [normWorkersMaps]
        rw [hnw] at hmaps
        simp only [eq_self_iff_true, if_true, Option.some.injEq] at hmaps
        subst hmaps
        simp only [mapsFinish]
        have hL : (maskSelect mask vol).zip
            ((maskSelect mask pv).zip (maskSelect mask pinds)) =
            maskSelect mask (vol.zip (pv.zip pinds)) := by
          rw [maskSelect_zip, maskSelect_zip]
        have hWlen : mask.length = (vol.zip (pv.zip pinds)).length := by
          rw [List.length_zip, List.length_zip]
          omega
        have hWget : (vol.zip (pv.zip pinds)).getD i ([], ([], [])) =
            (vol.getD i [], (pv.getD i [], pinds.getD i [])) := by
          rw [getD_zip _ _ _ _ _ (by omega)
            (by rw [List.length_zip]; omega)]
          rw [getD_zip _ _ _ _ _ (by omega) (by omega)]
        have hproj := mapsLoopGo_scalars_eq_map E Bm verts gfa_thr
          ((maskSelect mask vol).zip
            ((maskSelect mask pv).zip (maskSelect mask pinds)))
          (QAState.mat (List.replicate (maskSelect mask vol).length
            (List.replicate npeaks 0))) 0 Tracker.neginf
        refine ⟨?_, ?_, ?_⟩
        · rw [show (maps_from_sh_loop E Bm verts gfa_thr (maskSelect mask vol)
            (maskSelect mask pv) (maskSelect mask pinds) npeaks).nufo =
              (maskSelect mask (vol.zip (pv.zip pinds))).map
                (mapsNufoVoxel E Bm gfa_thr) from by
              rw [maps_from_sh_loop, hproj.1, hL]]
          rw [maskScatter_select_map _ _ _ ([], ([], [])) mask _ i hWlen
            hilt hmi, hWget]
          simp only [mapsNufoVoxel, hnz, Bool.false_eq_true, if_false]
        · rw [show (maps_from_sh_loop E Bm verts gfa_thr (maskSelect mask vol)
            (maskSelect mask pv) (maskSelect mask pinds) npeaks).afd_max =
              (maskSelect mask (vol.zip (pv.zip pinds))).map
                (mapsAfdMaxVoxel E Bm gfa_thr) from by
              rw [maps_from_sh_loop, hproj.2.1, hL]]
          rw [maskScatter_select_map _ _ _ ([], ([], [])) mask _ i hWlen
            hilt hmi, hWget]
          simp only [mapsAfdMaxVoxel, hnz, Bool.false_eq_true, if_false]
        · rw [show (maps_from_sh_loop E Bm verts gfa_thr (maskSelect mask vol)
            (maskSelect mask pv) (maskSelect mask pinds) npeaks).afd_sum =
              (maskSelect mask (vol.zip (pv.zip pinds))).map
                (mapsAfdSumVoxel E Bm gfa_thr) from by
              rw [maps_from_sh_loop, hproj.2.2, hL]]
          rw [maskScatter_select_map _ _ _ ([], ([], [])) mask _ i hWlen
            hilt hmi, hWget]
          simp only [mapsAfdSumVoxel, hnz, Bool.false_eq_true, if_false]
    exact ⟨by rw [hdrow, hz1], by rw [hvrow, hz2], by rw [hprow, hz3],
      hmapsrow.1, hmapsrow.2.1, hmapsrow.2.2⟩

theorem pdOne_wf : PDwf pdOne := by
  intro odf
  refine ⟨?_, ?_, rfl, rfl, ?_⟩
  · simp [pdOne]
  · intro x hx
    have hx1 : x = 1 := by simpa [pdOne] using hx
    rw [hx1]
    norm_num
  · intro j hj
    have hj0 : j = 0 := by simpa [pdOne] using hj
    rw [hj0]

theorem peaksExZ_eval :
    peaks_from_sh pdOne exB exShZ 1 (some [true, true]) 0 false 1 false
      (some 1) 4 =
    some ([[((1 : ℚ), (0 : ℚ), (0 : ℚ))], [(0, 0, 0)]],
      [[(1 : ℚ)], [0]], [[(0 : ℤ)], [-1]]) := by
  norm_num [peaks_from_sh, peaks_from_sh_loop, peaksVoxel, sliceAssign,
    maskSelect, maskScatter, normWorkersPeaks, anyNonzero, exB, exShZ, pdOne,
    vecMat, sumVecs, scaleVec,
    show order_from_ncoef 1 false = some 0 from by decide]

theorem mapsExZ_eval :
    maps_from_sh exactFns exB exVerts exShZ 1 exPv exPi 1 (some [true, true])
      0 (some 1) 4 = some mapsExZOut := by
  norm_num [maps_from_sh, maps_from_sh_loop, mapsLoopGo, consVoxel, mapsFinish,
    mapsReduce, maskSelect, maskScatter, normWorkersMaps, mapsExZOut,
    show order_from_ncoef 1 false = some 0 from by decide,
    exB, exVerts, exShZ, exPv, exPi,
    vecMat, sumVecs, dot, anyNonzero, npMax, npMin, rgbVec, scaleVec, qaRows,
    tmax, divByTracker, rmul255, exactFns, gfaRat, gfaSq, ratSqrt, norm3Rat,
    List.countP_cons,
    show Int.toNat 0 = 0 from rfl, show Int.toNat 4 = 4 from rfl,
    show Int.toNat 16 = 16 from rfl,
    natSqrtE_0, natSqrtE_1, natSqrtE_4, natSqrtE_16]

theorem c7_peaks_invariants_witness :
    (([[(1 : ℚ)], [0]] : List (List ℚ)).getD 1 []).Pairwise (· ≥ ·) ∧
    (∀ j, j < 1 → (([[0], [-1]] : List (List ℤ)).getD 1 []).getD j 0 = -1 →
      (([[(1 : ℚ)], [0]] : List (List ℚ)).getD 1 []).getD j 1 = 0 ∧
      (([[((1 : ℚ), (0 : ℚ), (0 : ℚ))], [(0, 0, 0)]] :
          List (List Vec3)).getD 1 []).getD j ((1, 1, 1) : Vec3) =
        ((0, 0, 0) : Vec3)) ∧
    (anyNonzero (exShZ.getD 1 []) = false →
      ([[((1 : ℚ), (0 : ℚ), (0 : ℚ))], [(0, 0, 0)]] :
          List (List Vec3)).getD 1 [] = List.replicate 1 ((0, 0, 0) : Vec3) ∧
      ([[(1 : ℚ)], [0]] : List (List ℚ)).getD 1 [] =
        List.replicate 1 (0 : ℚ) ∧
      ([[0], [-1]] : List (List ℤ)).getD 1 [] = List.replicate 1 (-1 : ℤ) ∧
      mapsExZOut.nufo.getD 1 1 = 0 ∧ mapsExZOut.afd_max.getD 1 1 = 0 ∧
      mapsExZOut.afd_sum.getD 1 1 = 0) :=
  c7_peaks_invariants pdOne exactFns exB exB exVerts exShZ 1 1 [true, true]
    exPv exPi 0 0 false false (some 1) 4
    [[((1 : ℚ), (0 : ℚ), (0 : ℚ))], [(0, 0, 0)]] [[(1 : ℚ)], [0]]
    [[(0 : ℤ)], [-1]] mapsExZOut 1
    pdOne_wf rfl rfl rfl (by decide) rfl peaksExZ_eval mapsExZ_eval

/-- C9 (amended): an unset worker count autodetects (becomes `cpu_count()`)
in all chunked operations, but a worker count of 0 autodetects ONLY in
`peaks_from_sh` (whose guard is `<= 0`); `maps_from_sh` and
`convert_sh_basis` keep 0 (guard `< 0`), and `convert_sh_to_sf` has no
normalisation beyond its default argument. A worker count of 1 takes the
dedicated sequential path, and for `peaks_from_sh` every worker count
n >= 1 returns exactly the sequential result. -/
theorem c9_worker_normalization_and_sequential (cpu : ℤ) :
    (normWorkersPeaks cpu none = cpu ∧ normWorkersPeaks cpu (some 0) = cpu ∧
     normWorkersMaps cpu none = cpu ∧ normWorkersMaps cpu (some 0) = 0 ∧
     normWorkersShToSf cpu none = cpu ∧ normWorkersShToSf cpu (some 0) = 0) ∧
    (∀ (pd : List ℚ → PeakDirections) (B : Mat) (vol : List Voxel) (C : ℕ)
       (mask : Option (List Bool)) (absThr : ℚ) (normalize : Bool)
       (npeaks : ℕ) (full : Bool) (n : ℤ), 1 ≤ n →
       peaks_from_sh pd B vol C mask absThr normalize npeaks full (some n) cpu
         = peaks_from_sh pd B vol C mask absThr normalize npeaks full
             (some 1) cpu) := by
  constructor
  · exact ⟨rfl, by simp [normWorkersPeaks], rfl, by simp [normWorkersMaps],
      rfl, rfl⟩
  · intro pd B vol C mask absThr normalize npeaks full n hn
    rcases ho : order_from_ncoef C full with - | o
    · simp only [peaks_from_sh, ho]
    · simp only [peaks_from_sh, ho]
      have hnn : normWorkersPeaks cpu (some n) = n := by
        simp only [normWorkersPeaks]
        rw [if_neg (by omega)]
      have h1 : normWorkersPeaks cpu (some 1) = 1 := by
        simp only [normWorkersPeaks]
        rw [if_neg (by omega)]
      rw [hnn, h1]
      by_cases hn1 : n = 1
      · rw [hn1]
      · rw [if_neg hn1, if_neg (show ¬ n ≤ 0 by omega), if_pos rfl]
        have hn1' : 1 ≤ n.toNat := by omega
        simp only [List.map_map]
        rw [show (fun (r : List (List Vec3) × List (List ℚ) ×
              List (List ℤ)) => r.1) ∘
            peaks_from_sh_loop pd B absThr npeaks normalize =
            List.map (fun v =>
              (peaksVoxel pd B absThr npeaks normalize v).1) from rfl,
          flatten_map_arraySplit _ _ _ hn1']
        rw [show (fun (r : List (List Vec3) × List (List ℚ) ×
              List (List ℤ)) => r.2.1) ∘
            peaks_from_sh_loop pd B absThr npeaks normalize =
            List.map (fun v =>
              (peaksVoxel pd B absThr npeaks normalize v).2.1) from rfl,
          flatten_map_arraySplit _ _ _ hn1']
        rw [show (fun (r : List (List Vec3) × List (List ℚ) ×
              List (List ℤ)) => r.2.2) ∘
            peaks_from_sh_loop pd B absThr npeaks normalize =
            List.map (fun v =>
              (peaksVoxel pd B absThr npeaks normalize v).2.2) from rfl,
          flatten_map_arraySplit _ _ _ hn1']
        rfl

/-- Witness for C9 at cpu = 4 and worker count 2 on the concrete two-voxel
volume. -/
theorem c9_worker_normalization_and_sequential_witness :
    (normWorkersPeaks 4 none = 4 ∧ normWorkersPeaks 4 (some 0) = 4 ∧
     normWorkersMaps 4 none = 4 ∧ normWorkersMaps 4 (some 0) = 0 ∧
     normWorkersShToSf 4 none = 4 ∧ normWorkersShToSf 4 (some 0) = 0) ∧
    peaks_from_sh pdOne exB exSh 1 none 0 false 1 false (some 2) 4 =
      peaks_from_sh pdOne exB exSh 1 none 0 false 1 false (some 1) 4 :=
  ⟨(c9_worker_normalization_and_sequential 4).1,
   (c9_worker_normalization_and_sequential 4).2 pdOne exB exSh 1 none 0 false
     1 false 2 (by decide)⟩

end Scilpy
